import Mathlib

/-!
Verification of `scripts/make_release.py` (DIRACOS2 release automation).

The Python source is shallowly embedded: strings become `List Char` (wrapped
in `String` at the interfaces), Python exceptions become an explicit error
type, and the regular expressions appearing in the source are compiled by
hand into deterministic scanners that implement the backtracking semantics
of Python's `re` module on the concrete patterns used.  The external
`packaging.version.Version` class is modelled by `PyVersion` below,
restricted to the release/pre/dev grammar of PEP 440 that the repository's
version strings use.  All definitions are executable so that theorems can be
checked on concrete inputs by `decide`.
-/

namespace MakeRelease

/-! ## Python exception model -/

inductive PyErr where
  | keyError
  | invalidVersion
  | typeError
  | assertionError
  | valueError
  | notImplementedError
  | runtimeError
  | nameError
deriving DecidableEq, Repr

instance instDecEqExcept {e a : Type} [DecidableEq e] [DecidableEq a] :
    DecidableEq (Except e a) := fun x y =>
  match x, y with
  | .ok v, .ok w => decidable_of_iff (v = w) (by simp)
  | .ok _, .error _ => isFalse (fun h => Except.noConfusion h)
  | .error _, .ok _ => isFalse (fun h => Except.noConfusion h)
  | .error v, .error w => decidable_of_iff (v = w) (by simp)

/-! ## Character and string utilities (Python `str` semantics) -/

/-- Python `\s` on ASCII text: space, tab, newline, carriage return,
vertical tab, form feed. -/
def pyWs (c : Char) : Bool :=
  c = ' ' || c = '\t' || c = '\n' || c = '\r' || c = '\x0b' || c = '\x0c'

/-- ASCII `[A-Z]`, as used by the metadata pattern `# ([A-Z]+): +(.+)`. -/
def isUpperAscii (c : Char) : Bool := 'A' ≤ c && c ≤ 'Z'

/-- ASCII `[a-z]`. -/
def isLowerAscii (c : Char) : Bool := 'a' ≤ c && c ≤ 'z'

/-- ASCII `[0-9]`, Python `\d`. -/
def isDigitAscii (c : Char) : Bool := '0' ≤ c && c ≤ '9'

/-- ASCII lower-casing, as `str.lower` does on the version strings here. -/
def lowerChar (c : Char) : Char :=
  if 65 ≤ c.toNat ∧ c.toNat ≤ 90 then Char.ofNat (c.toNat + 32) else c

/-- The decimal digit character for `n < 10` (Python `str(int)` building block). -/
def digitChar : Nat → Char
  | 0 => '0' | 1 => '1' | 2 => '2' | 3 => '3' | 4 => '4'
  | 5 => '5' | 6 => '6' | 7 => '7' | 8 => '8' | 9 => '9'
  | _ => '*'

/-- Fuel-driven decimal rendering; fuel `n + 1` always suffices. -/
def natToStrAux : Nat → Nat → List Char
  | 0, _ => []
  | fuel + 1, n =>
    if n < 10 then [digitChar n]
    else natToStrAux fuel (n / 10) ++ [digitChar (n % 10)]

/-- Python `str(n)` for a non-negative int `n`. -/
def natToStr (n : Nat) : List Char := natToStrAux (n + 1) n

/-- Numeric value of a list of decimal digit characters (Python `int(s)`
restricted to the digit strings produced by the scanners below). -/
def digitsVal (ds : List Char) : Nat :=
  ds.foldl (fun a c => a * 10 + (c.toNat - 48)) 0

/-- Python `str.count(sub)` scanner: non-overlapping occurrences, left to
right; `skip` counts characters still covered by the previous occurrence. -/
def countOccAux (sub : List Char) : List Char → Nat → Nat
  | [], _ => 0
  | _ :: rest, k + 1 => countOccAux sub rest k
  | c :: rest, 0 =>
    if sub.isPrefixOf (c :: rest) then 1 + countOccAux sub rest (sub.length - 1)
    else countOccAux sub rest 0

/-- Python `str.count(sub)`; for the empty pattern Python returns `len + 1`. -/
def countOcc (s sub : List Char) : Nat :=
  if sub.isEmpty then s.length + 1 else countOccAux sub s 0

/-- Python `str.replace(old, new)` scanner for nonempty `old`: replaces
non-overlapping occurrences left to right. -/
def replaceOccAux (old repl : List Char) : List Char → Nat → List Char
  | [], _ => []
  | _ :: rest, k + 1 => replaceOccAux old repl rest k
  | c :: rest, 0 =>
    if old.isPrefixOf (c :: rest) then repl ++ replaceOccAux old repl rest (old.length - 1)
    else c :: replaceOccAux old repl rest 0

/-- Python `str.replace("", new)` interleaves `new` around every character. -/
def replEmpty (repl : List Char) : List Char → List Char
  | [] => repl
  | c :: rest => repl ++ c :: replEmpty repl rest

/-- Python `str.replace(old, new)`. -/
def replaceOcc (s old repl : List Char) : List Char :=
  if old.isEmpty then replEmpty repl s else replaceOccAux old repl s 0

/-- Python `s.split(sep, 1)` on a nonempty separator, as an option: `none`
when the separator does not occur (the source's tuple unpacking then raises
`ValueError`). -/
def splitOnFirst (sep : List Char) : List Char → Option (List Char × List Char)
  | [] => none
  | c :: rest =>
    if sep.isPrefixOf (c :: rest) then some ([], (c :: rest).drop sep.length)
    else (splitOnFirst sep rest).map fun p => (c :: p.1, p.2)

/-- Last value stored for a key when Python builds `dict(pairs)`:
later pairs override earlier ones. -/
def lookupLast (pairs : List (String × String)) (k : String) : Option String :=
  (pairs.filter fun p => p.1 = k).getLast?.map Prod.snd

/-! ## `packaging.version.Version` model

The repository parses version strings with `packaging.version.Version`
(PEP 440).  `PyVersion` models the subset of PEP 440 actually inhabited by
the version strings this program manipulates: a nonempty dotted release,
an optional pre-release pair (normalized letters `a`/`b`/`rc` and a
number), and an optional `.devN` segment.  Epoch, post-release and local
segments are not modelled; strings using them do not parse here. -/

structure PyVersion where
  release : List Nat
  pre : Option (String × Nat)
  dev : Option Nat
deriving DecidableEq, Repr

/-- One of PEP 440's optional separators `-`, `_`, `.`. -/
def isSepChar (c : Char) : Bool := c = '-' || c = '_' || c = '.'

def headIsSep (cs : List Char) : Bool :=
  match cs with
  | c :: _ => isSepChar c
  | [] => false

/-- Release segment scanner: consumes `N(.N)*`, returning the numeric
components and the unconsumed remainder.  The caller guarantees the input
starts with a digit; a dot is consumed only when followed by a digit, so a
suffix such as `.dev1` is left for `parseSuffix`. -/
def parseRelAux : List Char → List Char → List Nat → (List Nat × List Char)
  | [], cur, acc => (acc ++ [digitsVal cur], [])
  | c :: rest, cur, acc =>
    if isDigitAscii c then parseRelAux rest (cur ++ [c]) acc
    else if c = '.' then
      match rest with
      | d :: _ =>
        if isDigitAscii d then parseRelAux rest [] (acc ++ [digitsVal cur])
        else (acc ++ [digitsVal cur], c :: rest)
      | [] => (acc ++ [digitsVal cur], c :: rest)
    else (acc ++ [digitsVal cur], c :: rest)

/-- PEP 440 pre-release words and their normalized spellings. -/
def normPreWord (w : List Char) : Option String :=
  if w = ['a'] ∨ w = "alpha".data then some ("a")
  else if w = ['b'] ∨ w = "beta".data then some ("b")
  else if w = ['c'] ∨ w = "rc".data ∨ w = "pre".data ∨ w = "preview".data then some ("rc")
  else none

/-- `[-_\.]? [0-9]*` after a pre/dev word: an optional separator is consumed
only together with following digits; a missing number means `0`. -/
def parseSegNum : List Char → Nat × List Char
  | [] => (0, [])
  | c :: rest =>
    if isDigitAscii c then
      let ds := (c :: rest).takeWhile isDigitAscii
      (digitsVal ds, (c :: rest).drop ds.length)
    else if isSepChar c then
      match rest with
      | d :: _ =>
        if isDigitAscii d then
          let ds := rest.takeWhile isDigitAscii
          (digitsVal ds, rest.drop ds.length)
        else (0, c :: rest)
      | [] => (0, c :: rest)
    else (0, c :: rest)

/-- Optional `.devN` segment after a pre-release segment. -/
def parseDev (cs : List Char) (rel : List Nat) (pre : Option (String × Nat)) :
    Option PyVersion :=
  if cs.isEmpty then some ⟨rel, pre, none⟩ else
  let cs1 := if headIsSep cs then cs.tail else cs
  let w := cs1.takeWhile isLowerAscii
  if w = "dev".data then
    let p := parseSegNum (cs1.drop w.length)
    if p.2.isEmpty then some ⟨rel, pre, some p.1⟩ else none
  else none

/-- Pre-release / dev suffix after the release components. -/
def parseSuffix (cs : List Char) (rel : List Nat) : Option PyVersion :=
  if cs.isEmpty then some ⟨rel, none, none⟩ else
  let cs1 := if headIsSep cs then cs.tail else cs
  let w := cs1.takeWhile isLowerAscii
  if w.isEmpty then none
  else if w = "dev".data then
    let p := parseSegNum (cs1.drop w.length)
    if p.2.isEmpty then some ⟨rel, none, some p.1⟩ else none
  else
    match normPreWord w with
    | none => none
    | some L =>
      let p := parseSegNum (cs1.drop w.length)
      parseDev p.2 rel (some (L, p.1))

/-- Python `str.strip()` over the whitespace PEP 440 tolerates. -/
def pyStrip (cs : List Char) : List Char :=
  ((cs.dropWhile pyWs).reverse.dropWhile pyWs).reverse

/-- PEP 440 permits one leading `v`, which parsing ignores. -/
def stripV : List Char → List Char
  | 'v' :: t => t
  | cs => cs

/-- `packaging.version.Version(s)` on the modelled PEP 440 subset:
case-folding, surrounding whitespace and a leading `v` are accepted;
`none` models an `InvalidVersion` exception. -/
def parseVersion (s : String) : Option PyVersion :=
  let cs := stripV ((pyStrip s.data).map lowerChar)
  match cs with
  | c :: _ =>
    if isDigitAscii c then
      let p := parseRelAux cs [] []
      parseSuffix p.2 p.1
    else none
  | [] => none

/-- `".".join(map(str, version.release))`. -/
def renderRelease : List Nat → List Char
  | [] => []
  | [n] => natToStr n
  | n :: rest => natToStr n ++ '.' :: renderRelease rest

def renderPre : Option (String × Nat) → List Char
  | none => []
  | some (L, n) => L.data ++ natToStr n

def renderDev : Option Nat → List Char
  | none => []
  | some n => '.' :: 'd' :: 'e' :: 'v' :: natToStr n

/-- `str(version)`: the canonical PEP 440 rendering on this subset. -/
def renderVersion (v : PyVersion) : List Char :=
  renderRelease v.release ++ renderPre v.pre ++ renderDev v.dev

/-- `Version.is_prerelease`: true for pre-releases and dev-releases. -/
def isPrerelease (v : PyVersion) : Bool := v.pre.isSome || v.dev.isSome

/-! ### PEP 440 ordering (packaging's comparison key on this subset) -/

/-- Trailing zero components are ignored when comparing releases. -/
def stripZeros (l : List Nat) : List Nat := (l.reverse.dropWhile (· = 0)).reverse

def natCmp (a b : Nat) : Ordering := if a < b then .lt else if a = b then .eq else .gt

def cmpNatList : List Nat → List Nat → Ordering
  | [], [] => .eq
  | [], _ :: _ => .lt
  | _ :: _, [] => .gt
  | a :: l1, b :: l2 => (natCmp a b).then (cmpNatList l1 l2)

/-- Pre-release part of the key: a dev-only version sorts below any
lettered pre-release, which sorts below the plain release. -/
def preKey (pre : Option (String × Nat)) (dev : Option Nat) : Nat × Nat :=
  match pre, dev with
  | some (L, n), _ => (if L = "a" then 1 else if L = "b" then 2 else 3, n)
  | none, some _ => (0, 0)
  | none, none => (4, 0)

/-- Dev part of the key: an absent dev segment sorts after any present one. -/
def devKey : Option Nat → Nat × Nat
  | none => (1, 0)
  | some n => (0, n)

def cmpVersion (a b : PyVersion) : Ordering :=
  (cmpNatList (stripZeros a.release) (stripZeros b.release)).then
    ((natCmp (preKey a.pre a.dev).1 (preKey b.pre b.dev).1).then
      ((natCmp (preKey a.pre a.dev).2 (preKey b.pre b.dev).2).then
        ((natCmp (devKey a.dev).1 (devKey b.dev).1).then
          (natCmp (devKey a.dev).2 (devKey b.dev).2))))

/-- Python `a < b` on `Version`. -/
def vltB (a b : PyVersion) : Bool := cmpVersion a b == Ordering.lt

/-- Python `a <= b` on `Version`. -/
def vleB (a b : PyVersion) : Bool := cmpVersion a b != Ordering.gt

/-- Python `a == b` on `Version` (the dict-key equality). -/
def veqB (a b : PyVersion) : Bool := cmpVersion a b == Ordering.eq

/-- First component of the comparison key (the padded release tuple). -/
def keyRel (v : PyVersion) : List Nat := stripZeros v.release

/-- Remaining components of the comparison key, as a fixed-length list. -/
def keyTail (v : PyVersion) : List Nat :=
  [(preKey v.pre v.dev).1, (preKey v.pre v.dev).2, (devKey v.dev).1, (devKey v.dev).2]

/-! ## Installer metadata extraction

The source extracts metadata with `dict(re.findall(r"# ([A-Z]+): +(.+)", header))`.
`tryMeta` decides whether a match starts at the current position and, if so,
returns the captured pair and the match length; the (rare) backtracking case
where the line ends in spaces makes the last space the value. -/

def tryMeta (s : List Char) : Option ((String × String) × Nat) :=
  match s with
  | '#' :: ' ' :: s2 =>
    let K := s2.takeWhile isUpperAscii
    if K.isEmpty then none else
    match s2.drop K.length with
    | ':' :: s3 =>
      let SP := s3.takeWhile (fun c => c = ' ')
      if SP.isEmpty then none else
      let v0 := (s3.drop SP.length).takeWhile (fun c => c ≠ '\n')
      if v0.isEmpty then
        if 2 ≤ SP.length then
          some ((String.mk K, " "), 2 + K.length + 1 + SP.length)
        else none
      else some ((String.mk K, String.mk v0), 2 + K.length + 1 + SP.length + v0.length)
    | _ => none
  | _ => none

/-- `re.findall` scan: try a match at every position, left to right,
skipping over the characters of a found match (non-overlapping). -/
def findMetaAux : List Char → Nat → List (String × String)
  | [], _ => []
  | _ :: rest, k + 1 => findMetaAux rest k
  | c :: rest, 0 =>
    match tryMeta (c :: rest) with
    | some (kv, len) => kv :: findMetaAux rest (len - 1)
    | none => findMetaAux rest 0

def findMeta (s : List Char) : List (String × String) := findMetaAux s 0

/-! ## `get_version` -/

/-- `release[:-1] + (release[-1] + 1,)`. -/
def bumpLast : List Nat → List Nat
  | [] => []
  | [n] => [n + 1]
  | n :: rest => n :: bumpLast rest

/-- The common tail of `get_version`: parse the (possibly overridden)
version string and derive `(current, next)`.  A dev-release with no
lettered pre-release segment makes `version.pre[:-1]` a `TypeError`, as
subscripting `None` does in Python. -/
def get_version_core (s : String) : Except PyErr (String × String) :=
  match parseVersion s with
  | none => .error .invalidVersion
  | some v =>
    if isPrerelease v then
      match v.pre with
      | none => .error .typeError
      | some p =>
        .ok (String.mk (renderVersion v),
          String.mk (renderRelease v.release ++ p.1.data ++ natToStr (p.2 + 1)))
    else
      .ok (String.mk (renderVersion v),
        String.mk (renderRelease (bumpLast v.release) ++ 'a' :: natToStr 1))

/-- `get_version(version, installer_metadata)` from the source: with no
requested version the embedded `VER` value is projected to its release
components and re-parsed; otherwise the requested string is parsed. -/
def get_version (version : Option String) (installer_metadata : List (String × String)) :
    Except PyErr (String × String) :=
  match version with
  | some s => get_version_core s
  | none =>
    match lookupLast installer_metadata ("VER") with
    | none => .error .keyError
    | some ver =>
      match parseVersion ver with
      | none => .error .invalidVersion
      | some v => get_version_core (String.mk (renderRelease v.release))

/-! ## Header patching (the in-loop body of `main`) -/

def END_HEADER_MAGIC : List Char := "@@END_HEADER@@".data

/-- The uniqueness assertion of lines 90-93: the bare `VER` substring count
must equal the `"DIRACOS <VER>"` substring count plus exactly one. -/
def headerPatchGuard (hdr ver : List Char) : Bool :=
  countOcc hdr ver == countOcc hdr ("DIRACOS ".data ++ ver) + 1

/-- Lines 90-96 in isolation: check the uniqueness assertion, and only then
rewrite the header by `str.replace`; `none` models the `AssertionError`
raised before any byte is rewritten. -/
def patchHeaderStep (hdr ver target : List Char) : Option (List Char) :=
  if headerPatchGuard hdr ver then some (replaceOcc hdr ver target) else none

/-- One iteration of the platform loop in `main` (lines 79-96): split the
blob on the first `END_HEADER_MAGIC`, extract metadata, derive the version
from this platform's own metadata, assert uniqueness, patch, reassemble. -/
def processPlatform (requested : Option String) (blob : List Char) :
    Except PyErr (List Char × String × String) :=
  match splitOnFirst END_HEADER_MAGIC blob with
  | none => .error .valueError
  | some hb =>
    let md := findMeta hb.1
    match get_version requested md with
    | .error e => .error e
    | .ok tn =>
      match lookupLast md ("VER") with
      | none => .error .keyError
      | some ver =>
        match patchHeaderStep hb.1 ver.data tn.1.data with
        | none => .error .assertionError
        | some hdr2 => .ok (hdr2 ++ END_HEADER_MAGIC ++ hb.2, tn.1, tn.2)

/-- The whole platform loop of `main`: each platform is processed with its
own metadata; the Python loop variables `this_version`/`next_version` keep
the values of the platform processed last. -/
def mainVersionLoop (requested : Option String) :
    List (List Char) → Except PyErr (List (List Char) × String × String)
  | [] => .error .nameError
  | [b] =>
    match processPlatform requested b with
    | .error e => .error e
    | .ok r => .ok ([r.1], r.2.1, r.2.2)
  | b :: rest =>
    match processPlatform requested b with
    | .error e => .error e
    | .ok r =>
      match mainVersionLoop requested rest with
      | .error e => .error e
      | .ok rs => .ok (r.1 :: rs.1, rs.2.1, rs.2.2)

/-! ## `make_release`: draft creation, asset uploads, publish

Remote calls are modelled by the observable sequence of events they
produce.  An upload records the asset name passed to the upload URL
template; `logging.warning` records its message.  A missing dictionary key
(`installers[platform]["environment_yaml"]` for a platform that never got
one) is a `KeyError` that aborts the run. -/

def PLATFORM_MAPPING : List (String × String) :=
  [("linux-64", "Linux-aarch64"),
   ("linux-aarch64", "Linux-x86_64"),
   ("linux-ppc64le", "Linux-ppc64le")]

def platformLabel (platform : String) : Option String :=
  (PLATFORM_MAPPING.find? fun p => p.1 = platform).map Prod.snd

/-- The per-platform artifact dictionary assembled by
`get_installer_artifacts`: `environment_yaml` and `commit_hash` are only
present for some platforms, hence optional. -/
structure InstallerData where
  commit_hash : Option String
  environment_yaml : Option String
  installer : String
deriving DecidableEq, Repr

inductive ReleaseEvent where
  | createDraft (tag : String) (prerelease : Bool)
  | upload (assetName : String)
  | warn (msg : String)
  | publish
deriving DecidableEq, Repr

def skipEnvWarning : String :=
  "Skipping upload of environment.yaml, currently only supported for linux-64"

/-- The asset-upload loop of `make_release` (lines 385-436).  Returns the
events performed in order and the exception, if any, that aborted the
loop.  Note the warning for a non-`linux-64` platform is logged and then
the `environment.yaml` uploads are attempted anyway. -/
def uploadAssetsLoop (version : String) :
    List (String × InstallerData) → List ReleaseEvent × Option PyErr
  | [] => ([], none)
  | (platform, inst) :: rest =>
    match platformLabel platform with
    | none => ([], some .keyError)
    | some alt =>
      let e1 := ReleaseEvent.upload ("DIRACOS-" ++ version ++ "-" ++ alt ++ ".sh")
      let e2 := ReleaseEvent.upload ("DIRACOS-" ++ alt ++ ".sh")
      let warns :=
        if platform ≠ "linux-64" then [ReleaseEvent.warn skipEnvWarning] else []
      match inst.environment_yaml with
      | none => ([e1, e2] ++ warns, some .keyError)
      | some _ =>
        let e3 := ReleaseEvent.upload
          ("DIRACOS-" ++ version ++ "-" ++ alt ++ "-environment.yaml")
        let e4 := ReleaseEvent.upload ("DIRACOS-" ++ alt ++ "-environment.yaml")
        let r := uploadAssetsLoop version rest
        ([e1, e2] ++ warns ++ [e3, e4] ++ r.1, r.2)

/-- `make_release(installers, version, release_notes)`: create the draft
(needs the designated platform's commit hash and the parsed version's
prerelease flag), run the upload loop, and publish only if every upload
succeeded. -/
def make_release (installers : List (String × InstallerData)) (version : String) :
    List ReleaseEvent × Option PyErr :=
  match (installers.find? fun p => p.1 = "linux-64").map Prod.snd with
  | none => ([], some .keyError)
  | some inst64 =>
    match inst64.commit_hash with
    | none => ([], some .keyError)
    | some _ =>
      match parseVersion version with
      | none => ([], some .invalidVersion)
      | some v =>
        let draft := ReleaseEvent.createDraft version (isPrerelease v)
        let r := uploadAssetsLoop version installers
        match r.2 with
        | some e => (draft :: r.1, some e)
        | none => (draft :: r.1 ++ [ReleaseEvent.publish], none)

/-! ## Build-string normalization (`changes_since_last_version`, lines 274-277)

`re.compile(r"(^\s+\- [^=]+=[^=]+)=[^=]+$", re.MULTILINE).sub(r"\1", text)`.

The scanner below implements the backtracking semantics of this pattern
exactly: a match can only start at a line start; `\s+`, being followed by
the literal `-`, always consumes the maximal whitespace run (which may
span blank lines); each `[^=]+` before a `=` is forced to the maximal
`=`-free run (which may span newlines); the final greedy `[^=]+$` takes
the whole remaining `=`-free run when it ends at end-of-text, otherwise
the longest nonempty prefix of it that stops just before a newline. -/

/-- The last greedy `[^=]+$` group: longest nonempty prefix of `r` ending
just before a `\n` inside `r`. -/
def zUpToLastNl (r : List Char) : Option (List Char) :=
  match r.reverse.dropWhile (fun c => c ≠ '\n') with
  | [] => none
  | _ :: tail => if tail.isEmpty then none else some tail.reverse

/-- Choose the `[^=]+$` group given the maximal `=`-free run `r` and what
follows it (`[]` means `r` runs to end-of-text, where `$` also matches). -/
def pickZ (r after : List Char) : Option (List Char) :=
  if after.isEmpty then (if r.isEmpty then none else some r)
  else zUpToLastNl r

/-- Attempt the pin pattern at a line start; on success return the text the
substitution keeps (capture group 1) and the total match length. -/
def tryPin (s : List Char) : Option (List Char × Nat) :=
  let w := s.takeWhile pyWs
  if w.isEmpty then none else
  match s.drop w.length with
  | c1 :: c2 :: s2 =>
    if c1 = '-' ∧ c2 = ' ' then
      let x := s2.takeWhile (fun c => c ≠ '=')
      if x.isEmpty then none else
      match s2.drop x.length with
      | c3 :: s4 =>
        if c3 = '=' then
          let y := s4.takeWhile (fun c => c ≠ '=')
          if y.isEmpty then none else
          match s4.drop y.length with
          | c5 :: s6 =>
            if c5 = '=' then
              let r := s6.takeWhile (fun c => c ≠ '=')
              match pickZ r (s6.drop r.length) with
              | some zz =>
                some (w ++ c1 :: c2 :: (x ++ c3 :: y),
                  w.length + 2 + x.length + 1 + y.length + 1 + zz.length)
              | none => none
            else none
          | [] => none
        else none
      | [] => none
    else none
  | _ => none

/-- The `re.sub` scan: attempt a match at every line start, emit group 1
instead of a found match, and continue after it. -/
def buildSubAux : List Char → Bool → Nat → List Char
  | [], _, _ => []
  | c :: rest, _, k + 1 => buildSubAux rest (c = '\n') k
  | c :: rest, atStart, 0 =>
    if atStart then
      match tryPin (c :: rest) with
      | some gl => gl.1 ++ buildSubAux rest (c = '\n') (gl.2 - 1)
      | none => c :: buildSubAux rest (c = '\n') 0
    else c :: buildSubAux rest (c = '\n') 0

/-- The build-string normalization applied to both manifests before the
second diff. -/
def buildNormalize (s : List Char) : List Char := buildSubAux s true 0

/-! ## `construct.yaml` version declaration (`bump_version_in_main`)

`CONSTRUCT_VERSION_PATTERN = re.compile(r"version: *(\d+\.\d.+) *\n")`.
Note `.+` requires at least one character after `\d+\.\d`, and `.+` being
greedy always reaches the newline, so the trailing ` *` matches nothing
and the capture keeps any trailing spaces. -/

/-- Attempt the construct-version pattern at the current position; on
success return the capture and the match length (newline included). -/
def tryConstruct (s : List Char) : Option (List Char × Nat) :=
  if ("version:".data).isPrefixOf s then
    let s1 := s.drop 8
    let SP := s1.takeWhile (fun c => c = ' ')
    let s2 := s1.drop SP.length
    let D := s2.takeWhile isDigitAscii
    if D.isEmpty then none else
    match s2.drop D.length with
    | '.' :: d :: s4 =>
      if isDigitAscii d then
        let T := s4.takeWhile (fun c => c ≠ '\n')
        if T.isEmpty then none else
        match s4.drop T.length with
        | '\n' :: _ =>
          some (D ++ '.' :: d :: T, 8 + SP.length + D.length + 1 + 1 + T.length + 1)
        | _ => none
      else none
    | _ => none
  else none

/-- One scan serving both `re.search` and `re.subn`: returns the text with
every non-overlapping match replaced by `repl`, the number of matches, and
the first match's capture. -/
def constructScanAux (repl : List Char) : List Char → Nat → List Char × Nat × Option (List Char)
  | [], _ => ([], 0, none)
  | _ :: rest, k + 1 => constructScanAux repl rest k
  | c :: rest, 0 =>
    match tryConstruct (c :: rest) with
    | some capLen =>
      let r := constructScanAux repl rest (capLen.2 - 1)
      (repl ++ r.1, r.2.1 + 1, some capLen.1)
    | none =>
      let r := constructScanAux repl rest 0
      (c :: r.1, r.2.1, r.2.2)

/-- `CONSTRUCT_VERSION_PATTERN.search(data)`, first capture group. -/
def searchConstructVersion (data : List Char) : Option (List Char) :=
  (constructScanAux [] data 0).2.2

/-- `CONSTRUCT_VERSION_PATTERN.subn(f"version: {new}\n", data)`. -/
def subnConstructVersion (data : List Char) (newV : String) : List Char × Nat :=
  let r := constructScanAux ("version: ".data ++ newV.data ++ ['\n']) data 0
  (r.1, r.2.1)

inductive BumpResult where
  | skipped
  | written (newData : List Char)
deriving DecidableEq, Repr

/-- `bump_version_in_main` on the decoded file content: skip when the new
version is not greater than the stored one; otherwise substitute, failing
unless the pattern matched exactly once.  `notImplementedError` models the
raise when the pattern is absent. -/
def bump_version_in_main (data : List Char) (new_version : String) :
    Except PyErr BumpResult :=
  match searchConstructVersion data with
  | none => .error .notImplementedError
  | some cap =>
    match parseVersion new_version with
    | none => .error .invalidVersion
    | some nv =>
      match parseVersion (String.mk cap) with
      | none => .error .invalidVersion
      | some sv =>
        if vleB nv sv then .ok .skipped
        else
          let r := subnConstructVersion data new_version
          if r.2 ≠ 1 then .error .runtimeError else .ok (.written r.1)

/-! ## Previous-release selection (`changes_since_last_version`, lines 248-256)

Tags failing to parse are skipped (with a logged message); the parsed tags
become dict keys (deduplicated by PEP 440 equality, first spelling kept);
the current version is appended, the list is sorted, and the entry just
before the first one equal to the current version is picked — where Python
list indexing makes position `-1` the *last* element. -/

def vleRel (a b : PyVersion) : Prop := vleB a b = true

instance : DecidableRel vleRel := fun a b => decEq (vleB a b) true

/-- Insertion into seen-first-wins dict keys. -/
def dedupKeysAux : List PyVersion → List PyVersion → List PyVersion
  | [], _ => []
  | v :: rest, seen =>
    if seen.any (fun k => veqB k v) then dedupKeysAux rest seen
    else v :: dedupKeysAux rest (v :: seen)

def dedupKeys (l : List PyVersion) : List PyVersion := dedupKeysAux l []

/-- `sorted(...)` over `Version` values: ascending, stable. -/
def pySorted (l : List PyVersion) : List PyVersion := List.insertionSort vleRel l

/-- Lines 248-256 of the source: the previous release chosen for the diff. -/
def previousReleaseSelection (tags : List String) (version : PyVersion) : PyVersion :=
  let keys := dedupKeys (tags.filterMap parseVersion)
  let sortedReleases := pySorted (keys ++ [version])
  let idx := sortedReleases.findIdx (fun x => veqB x version)
  if idx = 0 then sortedReleases.getLastD version
  else sortedReleases.getD (idx - 1) version

/-! ## Line-level views used to state the manifest-normalization claims -/

def splitLinesAux : List Char → List Char → List (List Char)
  | [], cur => [cur.reverse]
  | '\n' :: rest, cur => cur.reverse :: splitLinesAux rest []
  | c :: rest, cur => splitLinesAux rest (c :: cur)

/-- Python `str.split("\n")`. -/
def splitLines (s : List Char) : List (List Char) := splitLinesAux s []

/-- Inverse of `splitLines`: join lines with `\n`. -/
def joinLines : List (List Char) → List Char
  | [] => []
  | [l] => l
  | l :: rest => l ++ '\n' :: joinLines rest

/-- A dependency-pin line as the source pattern actually requires on a
single line: at least one leading whitespace character (`\s+`), then
`"- "`, then exactly two `=`-separated suffix fields with all three
fields nonempty. -/
def pinLine (l : List Char) : Bool :=
  let w := l.takeWhile pyWs
  if w.isEmpty then false else
  match l.drop w.length with
  | c1 :: c2 :: u =>
    if c1 = '-' ∧ c2 = ' ' then
      let x := u.takeWhile (fun c => c ≠ '=')
      if x.isEmpty then false else
      match u.drop x.length with
      | c3 :: u2 =>
        if c3 = '=' then
          let y := u2.takeWhile (fun c => c ≠ '=')
          if y.isEmpty then false else
          match u2.drop y.length with
          | c5 :: z => c5 = '=' && (!z.isEmpty && z.all (fun c => c ≠ '='))
          | [] => false
        else false
      | [] => false
    else false
  | _ => false

/-- Drop the trailing `=<build>` field of a pin line; other lines are kept. -/
def dropBuildLine (l : List Char) : List Char :=
  if pinLine l then
    let w := l.takeWhile pyWs
    match l.drop w.length with
    | c1 :: c2 :: u =>
      let x := u.takeWhile (fun c => c ≠ '=')
      match u.drop x.length with
      | c3 :: u2 =>
        let y := u2.takeWhile (fun c => c ≠ '=')
        w ++ c1 :: c2 :: (x ++ c3 :: y)
      | [] => l
    | _ => l
  else l

/-- The claim's pin-line pattern, `^\s*- <name>=<version>=<build>$`:
like `pinLine` but with *optional* leading whitespace. -/
def specPinLine (l : List Char) : Bool :=
  match l.dropWhile pyWs with
  | '-' :: ' ' :: u =>
    let x := u.takeWhile (fun c => c ≠ '=')
    if x.isEmpty then false else
    match u.drop x.length with
    | '=' :: u2 =>
      let y := u2.takeWhile (fun c => c ≠ '=')
      if y.isEmpty then false else
      match u2.drop y.length with
      | '=' :: z => !z.isEmpty && z.all (fun c => c ≠ '=')
      | _ => false
    | _ => false
  | _ => false

def specDropBuild (l : List Char) : List Char :=
  if specPinLine l then
    let w := l.takeWhile pyWs
    match l.drop w.length with
    | '-' :: ' ' :: u =>
      let x := u.takeWhile (fun c => c ≠ '=')
      match u.drop x.length with
      | '=' :: u2 =>
        let y := u2.takeWhile (fun c => c ≠ '=')
        w ++ '-' :: ' ' :: (x ++ '=' :: y)
      | _ => l
    | _ => l
  else l

/-- The build-string normalization as the claim describes it: line by line,
dropping the `=<build>` field from exactly the lines matching the claim's
pattern (zero leading whitespace allowed), order preserved. -/
def specBuildNormalize (s : List Char) : List Char :=
  joinLines ((splitLines s).map specDropBuild)

/-- Every pin line that is not the final line is immediately followed by a
line containing a `=` (which pins the final greedy `[^=]+$` group to the
pin line itself). -/
def pinsFollowedOk : List (List Char) → Bool
  | [] => true
  | [_] => true
  | l1 :: l2 :: rest => (!pinLine l1 || l2.contains '=') && pinsFollowedOk (l2 :: rest)

/-- The line starts with a non-whitespace character (so no match of the
`^\s+`-anchored pattern can begin on it). -/
def headNonWs : List Char → Bool
  | [] => false
  | c :: _ => !pyWs c

/-- The §3 well-formedness of a pre-release tag, as a decidable check:
its letters are one of the canonical PEP 440 spellings. -/
def preLettersOK : Option (String × Nat) → Bool
  | none => true
  | some p => p.1 = "a" || p.1 = "b" || p.1 = "rc"

/-! # Lemmas -/

/-! ## List scanning helpers -/

theorem takeWhile_append_all {p : Char → Bool} {l1 : List Char} (l2 : List Char)
    (h : ∀ c ∈ l1, p c = true) :
    (l1 ++ l2).takeWhile p = l1 ++ l2.takeWhile p := by
  induction l1 with
  | nil => simp
  | cons c t ih =>
    simp only [List.cons_append, List.takeWhile_cons, h c (List.mem_cons_self c t),
      if_true, List.cons.injEq, true_and]
    exact ih fun d hd => h d (List.mem_cons_of_mem c hd)

theorem takeWhile_all {p : Char → Bool} {l : List Char} (h : ∀ c ∈ l, p c = true) :
    l.takeWhile p = l := by
  have := @takeWhile_append_all p l [] h
  simpa using this

theorem takeWhile_cons_false {p : Char → Bool} {c : Char} (l : List Char) (h : p c = false) :
    (c :: l).takeWhile p = [] := by
  simp [List.takeWhile_cons, h]

theorem takeWhile_nil_of_head {p : Char → Bool} {l : List Char}
    (h : ∀ c t, l = c :: t → p c = false) : l.takeWhile p = [] := by
  cases l with
  | nil => rfl
  | cons c t => exact takeWhile_cons_false t (h c t rfl)

theorem dropWhile_append_all {p : Char → Bool} {l1 : List Char} (l2 : List Char)
    (h : ∀ c ∈ l1, p c = true) :
    (l1 ++ l2).dropWhile p = l2.dropWhile p := by
  induction l1 with
  | nil => simp
  | cons c t ih =>
    simp only [List.cons_append, List.dropWhile_cons, h c (List.mem_cons_self c t),
      if_pos rfl]
    exact ih fun d hd => h d (List.mem_cons_of_mem c hd)

theorem dropWhile_eq_self_all {p : Char → Bool} {l : List Char}
    (h : ∀ c ∈ l, p c = false) : l.dropWhile p = l := by
  cases l with
  | nil => rfl
  | cons c t => simp [List.dropWhile_cons, h c (List.mem_cons_self c t)]

theorem map_id_of {f : Char → Char} {l : List Char} (h : ∀ c ∈ l, f c = c) :
    l.map f = l := by
  induction l with
  | nil => rfl
  | cons c t ih =>
    simp only [List.map_cons, h c (List.mem_cons_self c t), List.cons.injEq, true_and]
    exact ih fun d hd => h d (List.mem_cons_of_mem c hd)

theorem pyStrip_eq_self {l : List Char} (h : ∀ c ∈ l, pyWs c = false) :
    pyStrip l = l := by
  unfold pyStrip
  rw [dropWhile_eq_self_all h, dropWhile_eq_self_all, List.reverse_reverse]
  intro c hc
  exact h c (by simpa using hc)

/-! ## Decimal rendering roundtrip -/

theorem digitChar_toNat {n : Nat} (h : n < 10) : (digitChar n).toNat = 48 + n := by
  interval_cases n <;> rfl

theorem isDigitAscii_digitChar {n : Nat} (h : n < 10) :
    isDigitAscii (digitChar n) = true := by
  interval_cases n <;> rfl

theorem digitsVal_append_one (l : List Char) (c : Char) :
    digitsVal (l ++ [c]) = digitsVal l * 10 + (c.toNat - 48) := by
  unfold digitsVal
  rw [List.foldl_append]
  rfl

theorem natToStrAux_spec : ∀ fuel n, n < fuel →
    natToStrAux fuel n ≠ [] ∧ (∀ c ∈ natToStrAux fuel n, isDigitAscii c = true) ∧
      digitsVal (natToStrAux fuel n) = n := by
  intro fuel
  induction fuel with
  | zero => intro n h; omega
  | succ f ih =>
    intro n h
    by_cases h10 : n < 10
    · refine ⟨by simp [natToStrAux, h10], ?_, ?_⟩
      · intro c hc
        simp only [natToStrAux, if_pos h10, List.mem_singleton] at hc
        subst hc; exact isDigitAscii_digitChar h10
      · simp only [natToStrAux, if_pos h10]
        show digitsVal [digitChar n] = n
        unfold digitsVal
        simp [digitChar_toNat h10]
    · have hdiv : n / 10 < f := by
        have h1 : n / 10 < n := Nat.div_lt_self (by omega) (by omega)
        omega
      obtain ⟨ih1, ih2, ih3⟩ := ih (n / 10) hdiv
      simp only [natToStrAux, if_neg h10]
      refine ⟨by simp, ?_, ?_⟩
      · intro c hc
        rcases List.mem_append.mp hc with hc | hc
        · exact ih2 c hc
        · rw [List.mem_singleton] at hc
          subst hc
          exact isDigitAscii_digitChar (Nat.mod_lt n (by omega))
      · rw [digitsVal_append_one, ih3, digitChar_toNat (Nat.mod_lt n (by omega))]
        omega

theorem natToStr_ne_nil (n : Nat) : natToStr n ≠ [] :=
  (natToStrAux_spec (n + 1) n (Nat.lt_succ_self n)).1

theorem natToStr_digits (n : Nat) : ∀ c ∈ natToStr n, isDigitAscii c = true :=
  (natToStrAux_spec (n + 1) n (Nat.lt_succ_self n)).2.1

theorem digitsVal_natToStr (n : Nat) : digitsVal (natToStr n) = n :=
  (natToStrAux_spec (n + 1) n (Nat.lt_succ_self n)).2.2

def digitChars : List Char := ['0', '1', '2', '3', '4', '5', '6', '7', '8', '9']

theorem digitChar_mem {n : Nat} (h : n < 10) : digitChar n ∈ digitChars := by
  interval_cases n <;> decide

theorem natToStrAux_mem : ∀ fuel n, n < fuel → ∀ c ∈ natToStrAux fuel n, c ∈ digitChars := by
  intro fuel
  induction fuel with
  | zero => intro n h; omega
  | succ f ih =>
    intro n h c hc
    by_cases h10 : n < 10
    · simp only [natToStrAux, if_pos h10, List.mem_singleton] at hc
      subst hc; exact digitChar_mem h10
    · have hdiv : n / 10 < f := by
        have h1 : n / 10 < n := Nat.div_lt_self (by omega) (by omega)
        omega
      simp only [natToStrAux, if_neg h10, List.mem_append, List.mem_singleton] at hc
      rcases hc with hc | hc
      · exact ih (n / 10) hdiv c hc
      · subst hc; exact digitChar_mem (Nat.mod_lt n (by omega))

theorem natToStr_mem {n : Nat} : ∀ c ∈ natToStr n, c ∈ digitChars :=
  natToStrAux_mem (n + 1) n (Nat.lt_succ_self n)

/-- Character-class facts for decimal digits, to push renders through the
parser's scanners. -/
theorem digitChars_facts {c : Char} (h : c ∈ digitChars) :
    isDigitAscii c = true ∧ pyWs c = false ∧ lowerChar c = c ∧
      isLowerAscii c = false ∧ c ≠ '.' ∧ c ≠ 'v' ∧ isSepChar c = false := by
  fin_cases h <;> exact ⟨rfl, rfl, rfl, rfl, by decide, by decide, rfl⟩

/-! ## Release render/parse roundtrip -/

theorem parseRelAux_digits {ds : List Char} (h : ∀ c ∈ ds, isDigitAscii c = true) :
    ∀ rest cur acc, parseRelAux (ds ++ rest) cur acc = parseRelAux rest (cur ++ ds) acc := by
  induction ds with
  | nil => simp
  | cons c t ih =>
    intro rest cur acc
    have hc : isDigitAscii c = true := h c (List.mem_cons_self c t)
    show parseRelAux (c :: (t ++ rest)) cur acc = _
    rw [parseRelAux.eq_def]
    simp only [hc, if_true]
    rw [ih (fun d hd => h d (List.mem_cons_of_mem c hd))]
    simp

theorem parseRelAux_nil (cur : List Char) (acc : List Nat) :
    parseRelAux [] cur acc = (acc ++ [digitsVal cur], []) := rfl

theorem parseRelAux_stop_dot {r : List Char} (cur : List Char) (acc : List Nat)
    (h : r = [] ∨ ∃ d t, r = d :: t ∧ isDigitAscii d = false) :
    parseRelAux ('.' :: r) cur acc = (acc ++ [digitsVal cur], '.' :: r) := by
  have hdot : isDigitAscii '.' = false := by decide
  rcases h with rfl | ⟨d, t, rfl, hd⟩
  · rfl
  · rw [parseRelAux.eq_def]
    simp [hd, hdot]

theorem parseRelAux_stop_other {c : Char} (r : List Char) (cur : List Char) (acc : List Nat)
    (h1 : isDigitAscii c = false) (h2 : c ≠ '.') :
    parseRelAux (c :: r) cur acc = (acc ++ [digitsVal cur], c :: r) := by
  rw [parseRelAux.eq_def]
  simp only [h1, Bool.false_eq_true, if_false, h2, if_neg]

theorem lower_not_digit {c : Char} (h : isLowerAscii c = true) : isDigitAscii c = false := by
  unfold isLowerAscii at h
  unfold isDigitAscii
  simp only [Bool.and_eq_true, decide_eq_true_eq] at h
  by_contra hcon
  simp only [Bool.not_eq_false, Bool.and_eq_true, decide_eq_true_eq] at hcon
  exact absurd (le_trans h.1 hcon.2) (by decide)

theorem lower_not_dot {c : Char} (h : isLowerAscii c = true) : c ≠ '.' := by
  intro hcon
  subst hcon
  exact absurd h (by decide)

theorem renderRelease_cons (n : Nat) {rest : List Nat} (h : rest ≠ []) :
    renderRelease (n :: rest) = natToStr n ++ '.' :: renderRelease rest := by
  cases rest with
  | nil => exact absurd rfl h
  | cons m t => rfl

theorem renderRelease_head {rel : List Nat} (h : rel ≠ []) :
    ∃ c t, renderRelease rel = c :: t ∧ c ∈ digitChars := by
  cases rel with
  | nil => exact absurd rfl h
  | cons n rest =>
    have hne := natToStr_ne_nil n
    obtain ⟨c, t, hct⟩ : ∃ c t, natToStr n = c :: t := by
      cases hh : natToStr n with
      | nil => exact absurd hh hne
      | cons c t => exact ⟨c, t, rfl⟩
    have hc : c ∈ digitChars := natToStr_mem c (by rw [hct]; exact List.mem_cons_self c t)
    cases rest with
    | nil => exact ⟨c, t, by simpa [renderRelease] using hct, hc⟩
    | cons m t2 =>
      refine ⟨c, t ++ '.' :: renderRelease (m :: t2), ?_, hc⟩
      rw [renderRelease_cons n (by simp), hct]
      rfl

theorem renderRelease_mem {rel : List Nat} :
    ∀ c ∈ renderRelease rel, c ∈ digitChars ∨ c = '.' := by
  induction rel with
  | nil => intro c hc; simp [renderRelease] at hc
  | cons n rest ih =>
    intro c hc
    cases rest with
    | nil =>
      simp only [renderRelease] at hc
      exact Or.inl (natToStr_mem c hc)
    | cons m t =>
      rw [renderRelease_cons n (by simp)] at hc
      rcases List.mem_append.mp hc with hc | hc
      · exact Or.inl (natToStr_mem c hc)
      · rcases List.mem_cons.mp hc with rfl | hc
        · exact Or.inr rfl
        · exact ih c hc

/-- Parsing the rendered release components, with the remainder untouched
as long as it cannot extend the release (empty, a lower-case letter, or
the `.dev` separator). -/
theorem parseRelAux_render {rel : List Nat} (hrel : rel ≠ []) (suffix : List Char)
    (hsuf : suffix = [] ∨ (∃ c t, suffix = c :: t ∧ isLowerAscii c = true) ∨
      ∃ t, suffix = '.' :: 'd' :: t) :
    ∀ acc, parseRelAux (renderRelease rel ++ suffix) [] acc = (acc ++ rel, suffix) := by
  have hstop : ∀ (cur : List Char) (acc : List Nat),
      parseRelAux suffix cur acc = (acc ++ [digitsVal cur], suffix) := by
    intro cur acc
    rcases hsuf with rfl | ⟨c, t, rfl, hc⟩ | ⟨t, rfl⟩
    · exact parseRelAux_nil cur acc
    · exact parseRelAux_stop_other t cur acc (lower_not_digit hc) (lower_not_dot hc)
    · exact parseRelAux_stop_dot cur acc (Or.inr ⟨'d', t, rfl, by decide⟩)
  induction rel with
  | nil => exact absurd rfl hrel
  | cons n rest ih =>
    intro acc
    cases rest with
    | nil =>
      show parseRelAux (natToStr n ++ suffix) [] acc = _
      rw [parseRelAux_digits (fun c hc => (digitChars_facts (natToStr_mem c hc)).1) suffix [] acc,
        List.nil_append, hstop, digitsVal_natToStr]
    | cons m t =>
      rw [renderRelease_cons n (by simp), List.append_assoc]
      rw [parseRelAux_digits (fun c hc => (digitChars_facts (natToStr_mem c hc)).1) _ [] acc]
      obtain ⟨c2, t2, hct, hc2⟩ := @renderRelease_head (m :: t) (by simp)
      have hhead : renderRelease (m :: t) ++ suffix = c2 :: (t2 ++ suffix) := by
        rw [hct]; rfl
      show parseRelAux ('.' :: (renderRelease (m :: t) ++ suffix)) (natToStr n) acc = _
      rw [hhead, parseRelAux.eq_def]
      simp only [(by decide : isDigitAscii '.' = false), Bool.false_eq_true, if_false,
        if_pos rfl, (digitChars_facts hc2).1, if_true, List.nil_append]
      rw [← hhead, ih (by simp), digitsVal_natToStr]
      simp

theorem parseSegNum_render (n : Nat) {tail : List Char}
    (htail : tail = [] ∨ ∃ c t, tail = c :: t ∧ isDigitAscii c = false) :
    parseSegNum (natToStr n ++ tail) = (n, tail) := by
  obtain ⟨c, t, hct⟩ : ∃ c t, natToStr n = c :: t := by
    cases hh : natToStr n with
    | nil => exact absurd hh (natToStr_ne_nil n)
    | cons c t => exact ⟨c, t, rfl⟩
  have hc : isDigitAscii c = true :=
    (digitChars_facts (natToStr_mem c (by rw [hct]; exact List.mem_cons_self c t))).1
  have htw : (natToStr n ++ tail).takeWhile isDigitAscii = natToStr n := by
    rw [takeWhile_append_all tail fun d hd => (digitChars_facts (natToStr_mem d hd)).1,
      takeWhile_nil_of_head, List.append_nil]
    intro d t2 hdt
    rcases htail with rfl | ⟨d2, t3, rfl, hd2⟩
    · simp at hdt
    · rw [List.cons.injEq] at hdt
      rw [hdt.1] at hd2
      exact hd2
  have heq : natToStr n ++ tail = c :: (t ++ tail) := by rw [hct]; rfl
  rw [heq, parseSegNum.eq_def]
  simp only [hc, if_true]
  rw [← heq, htw, digitsVal_natToStr, List.drop_left]

theorem devWord_eq : "dev".data = ['d', 'e', 'v'] := rfl

theorem takeWhile_lower_dev (tail : List Char)
    (htail : tail = [] ∨ ∃ c t, tail = c :: t ∧ isLowerAscii c = false) :
    ('d' :: 'e' :: 'v' :: tail).takeWhile isLowerAscii = ['d', 'e', 'v'] := by
  rw [List.takeWhile_cons, List.takeWhile_cons, List.takeWhile_cons]
  simp only [(by decide : isLowerAscii 'd' = true), (by decide : isLowerAscii 'e' = true),
    (by decide : isLowerAscii 'v' = true), if_true, List.cons.injEq, true_and]
  apply takeWhile_nil_of_head
  intro d t2 hdt
  rcases htail with rfl | ⟨d2, t3, rfl, hd2⟩
  · simp at hdt
  · rw [List.cons.injEq] at hdt
    rw [hdt.1] at hd2
    exact hd2

theorem natToStr_head_tail (n : Nat) :
    natToStr n = [] ∨ ∃ c t, natToStr n = c :: t ∧ isLowerAscii c = false := by
  cases hh : natToStr n with
  | nil => exact Or.inl rfl
  | cons c t =>
    refine Or.inr ⟨c, t, rfl, ?_⟩
    exact (digitChars_facts (natToStr_mem c (by rw [hh]; exact List.mem_cons_self c t))).2.2.2.1

theorem parseDev_render_none (rel : List Nat) (pre : Option (String × Nat)) :
    parseDev [] rel pre = some ⟨rel, pre, none⟩ := rfl

theorem parseDev_render_some (rel : List Nat) (pre : Option (String × Nat)) (m : Nat) :
    parseDev (renderDev (some m)) rel pre = some ⟨rel, pre, some m⟩ := by
  show parseDev ('.' :: 'd' :: 'e' :: 'v' :: natToStr m) rel pre = _
  rw [parseDev]
  have h1 : ('.' :: 'd' :: 'e' :: 'v' :: natToStr m).isEmpty = false := rfl
  have h2 : headIsSep ('.' :: 'd' :: 'e' :: 'v' :: natToStr m) = true := rfl
  simp only [h1, Bool.false_eq_true, if_false, h2, if_true, List.tail_cons]
  rw [takeWhile_lower_dev (natToStr m) (natToStr_head_tail m)]
  simp only [devWord_eq, if_pos, List.length_cons, List.length_nil]
  rw [show List.drop (0 + 1 + 1 + 1) ('d' :: 'e' :: 'v' :: natToStr m) = natToStr m from rfl]
  have h5 : parseSegNum (natToStr m ++ []) = (m, []) := parseSegNum_render m (Or.inl rfl)
  rw [List.append_nil] at h5
  rw [h5]
  rfl
theorem takeWhile_lower_natToStr (n : Nat) (rest : List Char) :
    (natToStr n ++ rest).takeWhile isLowerAscii = [] := by
  apply takeWhile_nil_of_head
  intro c t h
  obtain ⟨c0, t0, hct⟩ : ∃ c0 t0, natToStr n = c0 :: t0 := by
    cases hh : natToStr n with
    | nil => exact absurd hh (natToStr_ne_nil n)
    | cons c0 t0 => exact ⟨c0, t0, rfl⟩
  rw [hct] at h
  rw [List.cons_append, List.cons.injEq] at h
  rw [← h.1]
  exact (digitChars_facts (natToStr_mem c0 (by rw [hct]; exact List.mem_cons_self c0 t0))).2.2.2.1

theorem renderDev_head (dv : Option Nat) :
    renderDev dv = [] ∨ ∃ t, renderDev dv = '.' :: 'd' :: t := by
  cases dv with
  | none => exact Or.inl rfl
  | some m => exact Or.inr ⟨'e' :: 'v' :: natToStr m, rfl⟩

theorem parseSegNum_render_dev (n : Nat) (dv : Option Nat) :
    parseSegNum (natToStr n ++ renderDev dv) = (n, renderDev dv) := by
  apply parseSegNum_render
  rcases renderDev_head dv with h | ⟨t, h⟩
  · exact Or.inl h
  · exact Or.inr ⟨'.', 'd' :: t, h, by decide⟩

theorem parseSuffix_tail (rel : List Nat) (L : String) (n : Nat) (dv : Option Nat) :
    parseDev (parseSegNum (natToStr n ++ renderDev dv)).2 rel
        (some (L, (parseSegNum (natToStr n ++ renderDev dv)).1)) =
      some ⟨rel, some (L, n), dv⟩ := by
  rw [parseSegNum_render_dev]
  cases dv with
  | none => exact parseDev_render_none rel (some (L, n))
  | some m => exact parseDev_render_some rel (some (L, n)) m

theorem headIsSep_cons (c : Char) (rest : List Char) :
    headIsSep (c :: rest) = isSepChar c := rfl

theorem parseSuffix_render_pre (L : String) (hL : L = "a" ∨ L = "b" ∨ L = "rc")
    (n : Nat) (dv : Option Nat) (rel : List Nat) :
    parseSuffix (L.data ++ (natToStr n ++ renderDev dv)) rel = some ⟨rel, some (L, n), dv⟩ := by
  rcases hL with rfl | rfl | rfl
  · show parseSuffix ('a' :: (natToStr n ++ renderDev dv)) rel = _
    rw [parseSuffix]
    simp only [List.isEmpty_cons, Bool.false_eq_true, if_false, headIsSep_cons,
      (by decide : isSepChar 'a' = false), List.takeWhile_cons,
      (by decide : isLowerAscii 'a' = true), if_true, takeWhile_lower_natToStr,
      (by decide : ¬(['a'] : List Char) = "dev".data), if_false]
    rw [(by decide : normPreWord ['a'] = some ("a"))]
    rw [show List.drop (['a'] : List Char).length ('a' :: (natToStr n ++ renderDev dv)) =
      natToStr n ++ renderDev dv from rfl]
    exact parseSuffix_tail rel ("a") n dv
  · show parseSuffix ('b' :: (natToStr n ++ renderDev dv)) rel = _
    rw [parseSuffix]
    simp only [List.isEmpty_cons, Bool.false_eq_true, if_false, headIsSep_cons,
      (by decide : isSepChar 'b' = false), List.takeWhile_cons,
      (by decide : isLowerAscii 'b' = true), if_true, takeWhile_lower_natToStr,
      (by decide : ¬(['b'] : List Char) = "dev".data), if_false]
    rw [(by decide : normPreWord ['b'] = some ("b"))]
    rw [show List.drop (['b'] : List Char).length ('b' :: (natToStr n ++ renderDev dv)) =
      natToStr n ++ renderDev dv from rfl]
    exact parseSuffix_tail rel ("b") n dv
  · show parseSuffix ('r' :: 'c' :: (natToStr n ++ renderDev dv)) rel = _
    rw [parseSuffix]
    simp only [List.isEmpty_cons, Bool.false_eq_true, if_false, headIsSep_cons,
      (by decide : isSepChar 'r' = false), List.takeWhile_cons,
      (by decide : isLowerAscii 'r' = true), (by decide : isLowerAscii 'c' = true),
      if_true, takeWhile_lower_natToStr,
      (by decide : ¬(['r', 'c'] : List Char) = "dev".data), if_false]
    rw [(by decide : normPreWord ['r', 'c'] = some ("rc"))]
    rw [show List.drop (['r', 'c'] : List Char).length ('r' :: 'c' :: (natToStr n ++ renderDev dv)) =
      natToStr n ++ renderDev dv from rfl]
    exact parseSuffix_tail rel ("rc") n dv

theorem parseSuffix_render_dev (rel : List Nat) (m : Nat) :
    parseSuffix (renderDev (some m)) rel = some ⟨rel, none, some m⟩ := by
  show parseSuffix ('.' :: 'd' :: 'e' :: 'v' :: natToStr m) rel = _
  rw [parseSuffix]
  have h1 : ('.' :: 'd' :: 'e' :: 'v' :: natToStr m).isEmpty = false := rfl
  have h2 : headIsSep ('.' :: 'd' :: 'e' :: 'v' :: natToStr m) = true := rfl
  simp only [h1, Bool.false_eq_true, if_false, h2, if_true, List.tail_cons]
  rw [takeWhile_lower_dev (natToStr m) (natToStr_head_tail m)]
  simp only [(by decide : (['d', 'e', 'v'] : List Char).isEmpty = false),
    Bool.false_eq_true, if_false, devWord_eq, if_pos, List.length_cons, List.length_nil]
  rw [show List.drop (0 + 1 + 1 + 1) ('d' :: 'e' :: 'v' :: natToStr m) = natToStr m from rfl]
  have h5 : parseSegNum (natToStr m ++ []) = (m, []) := parseSegNum_render m (Or.inl rfl)
  rw [List.append_nil] at h5
  rw [h5]
  rfl

/-! ## Top-level `parseVersion` roundtrip -/

theorem renderRelease_good {rel : List Nat} :
    ∀ c ∈ renderRelease rel, pyWs c = false ∧ lowerChar c = c := by
  intro c hc
  rcases renderRelease_mem c hc with h | rfl
  · exact ⟨(digitChars_facts h).2.1, (digitChars_facts h).2.2.1⟩
  · exact ⟨rfl, rfl⟩

theorem renderPre_good {pre : Option (String × Nat)} (h : preLettersOK pre = true) :
    ∀ c ∈ renderPre pre, pyWs c = false ∧ lowerChar c = c := by
  intro c hc
  cases pre with
  | none => simp [renderPre] at hc
  | some p =>
    obtain ⟨L, n⟩ := p
    simp only [preLettersOK, Bool.or_eq_true, decide_eq_true_eq] at h
    simp only [renderPre, List.mem_append] at hc
    rcases hc with hc | hc
    · rcases h with (rfl | rfl) | rfl <;> fin_cases hc <;> exact ⟨rfl, rfl⟩
    · have hd := natToStr_mem c hc
      exact ⟨(digitChars_facts hd).2.1, (digitChars_facts hd).2.2.1⟩

theorem renderDev_good {dv : Option Nat} :
    ∀ c ∈ renderDev dv, pyWs c = false ∧ lowerChar c = c := by
  intro c hc
  cases dv with
  | none => simp [renderDev] at hc
  | some m =>
    simp only [renderDev, List.mem_cons] at hc
    rcases hc with rfl | rfl | rfl | rfl | hc
    · exact ⟨rfl, rfl⟩
    · exact ⟨rfl, rfl⟩
    · exact ⟨rfl, rfl⟩
    · exact ⟨rfl, rfl⟩
    · have hd := natToStr_mem c hc
      exact ⟨(digitChars_facts hd).2.1, (digitChars_facts hd).2.2.1⟩

theorem stripV_of_ne {c : Char} (t : List Char) (h : c ≠ 'v') :
    stripV (c :: t) = c :: t := by
  rw [stripV.eq_def]
  split
  · rename_i heq
    rw [List.cons.injEq] at heq
    exact absurd heq.1 h
  · rfl

/-- Parsing a rendered release followed by a well-shaped suffix reduces to
parsing the suffix. -/
theorem parseVersion_append {rel : List Nat} (hrel : rel ≠ []) (suffix : List Char)
    (hchars : ∀ c ∈ suffix, pyWs c = false ∧ lowerChar c = c)
    (hsuf : suffix = [] ∨ (∃ c t, suffix = c :: t ∧ isLowerAscii c = true) ∨
      ∃ t, suffix = '.' :: 'd' :: t) :
    parseVersion (String.mk (renderRelease rel ++ suffix)) = parseSuffix suffix rel := by
  have hall : ∀ c ∈ renderRelease rel ++ suffix, pyWs c = false ∧ lowerChar c = c := by
    intro c hc
    rcases List.mem_append.mp hc with hc | hc
    · exact renderRelease_good c hc
    · exact hchars c hc
  obtain ⟨c, t, hct, hcd⟩ := renderRelease_head hrel
  have hform : renderRelease rel ++ suffix = c :: (t ++ suffix) := by rw [hct]; rfl
  rw [parseVersion]
  rw [show (String.mk (renderRelease rel ++ suffix)).data = renderRelease rel ++ suffix from rfl]
  rw [pyStrip_eq_self (fun d hd => (hall d hd).1), map_id_of (fun d hd => (hall d hd).2)]
  rw [hform]
  have hcv : c ≠ 'v' := (digitChars_facts hcd).2.2.2.2.2.1
  rw [stripV_of_ne (t ++ suffix) hcv]
  show (if isDigitAscii c = true then
      parseSuffix (parseRelAux (c :: (t ++ suffix)) [] []).2
        (parseRelAux (c :: (t ++ suffix)) [] []).1
    else none) = parseSuffix suffix rel
  simp only [(digitChars_facts hcd).1, if_true]
  rw [← hform, parseRelAux_render hrel suffix hsuf []]
  simp

theorem preLetters_cases {L : String} {n : Nat}
    (h : preLettersOK (some (L, n)) = true) : L = "a" ∨ L = "b" ∨ L = "rc" := by
  simp only [preLettersOK, Bool.or_eq_true, decide_eq_true_eq] at h
  rcases h with (h | h) | h
  · exact Or.inl h
  · exact Or.inr (Or.inl h)
  · exact Or.inr (Or.inr h)

/-- Parsing the canonical rendering of a well-formed `PyVersion` recovers it
(`Version(str(v)) == v`). -/
theorem parseVersion_render {v : PyVersion} (h1 : v.release ≠ [])
    (h2 : preLettersOK v.pre = true) :
    parseVersion (String.mk (renderVersion v)) = some v := by
  obtain ⟨rel, pre, dv⟩ := v
  have hrv : renderVersion ⟨rel, pre, dv⟩ =
      renderRelease rel ++ (renderPre pre ++ renderDev dv) := by
    rw [renderVersion, List.append_assoc]
  rw [hrv]
  have hchars : ∀ c ∈ renderPre pre ++ renderDev dv, pyWs c = false ∧ lowerChar c = c := by
    intro c hc
    rcases List.mem_append.mp hc with hc | hc
    · exact renderPre_good h2 c hc
    · exact renderDev_good c hc
  cases pre with
  | some p =>
    obtain ⟨L, n⟩ := p
    have hL := preLetters_cases h2
    have hsuf : ∃ c t, renderPre (some (L, n)) ++ renderDev dv = c :: t ∧
        isLowerAscii c = true := by
      rcases hL with rfl | rfl | rfl
      · exact ⟨'a', natToStr n ++ renderDev dv, by simp [renderPre], by decide⟩
      · exact ⟨'b', natToStr n ++ renderDev dv, by simp [renderPre], by decide⟩
      · exact ⟨'r', 'c' :: (natToStr n ++ renderDev dv), by simp [renderPre], by decide⟩
    rw [parseVersion_append h1 _ hchars (Or.inr (Or.inl hsuf))]
    have hshape : renderPre (some (L, n)) ++ renderDev dv =
        L.data ++ (natToStr n ++ renderDev dv) := by
      rw [renderPre, List.append_assoc]
    rw [hshape]
    exact parseSuffix_render_pre L hL n dv rel
  | none =>
    cases dv with
    | none =>
      rw [parseVersion_append h1 _ hchars (Or.inl rfl)]
      rfl
    | some m =>
      have hsuf : ∃ t, renderPre none ++ renderDev (some m) = '.' :: 'd' :: t := by
        exact ⟨'e' :: 'v' :: natToStr m, rfl⟩
      rw [parseVersion_append h1 _ hchars (Or.inr (Or.inr hsuf))]
      rw [show renderPre none ++ renderDev (some m) = renderDev (some m) from rfl]
      exact parseSuffix_render_dev rel m

/-- `Version(".".join(map(str, version.release)))` recovers the release-only
projection. -/
theorem parseVersion_renderRelease {rel : List Nat} (h : rel ≠ []) :
    parseVersion (String.mk (renderRelease rel)) = some ⟨rel, none, none⟩ := by
  have := parseVersion_render (v := ⟨rel, none, none⟩) h rfl
  rw [show renderVersion ⟨rel, none, none⟩ = renderRelease rel by
    rw [renderVersion, renderPre, renderDev, List.append_nil, List.append_nil]] at this
  exact this

/-! ## `get_version` computation lemmas -/

theorem lookupLast_single (k val : String) : lookupLast [(k, val)] k = some val := by
  simp [lookupLast]

theorem get_version_none_eq (s : String) :
    get_version none [(("VER" : String), s)] =
      (match parseVersion s with
        | none => .error .invalidVersion
        | some v => get_version_core (String.mk (renderRelease v.release))) := by
  rw [get_version, lookupLast_single]

theorem parseRelAux_cons_digit {c : Char} (rest cur : List Char) (acc : List Nat)
    (hc : isDigitAscii c = true) :
    parseRelAux (c :: rest) cur acc = parseRelAux rest (cur ++ [c]) acc := by
  have h := @parseRelAux_digits [c]
    (by intro d hd; rw [List.mem_singleton] at hd; rw [hd]; exact hc) rest cur acc
  simpa using h

theorem parseRelAux_dot_digit {d : Char} (t cur : List Char) (acc : List Nat)
    (hd : isDigitAscii d = true) :
    parseRelAux ('.' :: d :: t) cur acc = parseRelAux (d :: t) [] (acc ++ [digitsVal cur]) := by
  rw [parseRelAux.eq_def]
  simp [hd, (by decide : isDigitAscii '.' = false)]

theorem parseRelAux_fst_ne_nil : ∀ (s cur : List Char) (acc : List Nat),
    (parseRelAux s cur acc).1 ≠ [] := by
  intro s
  induction s with
  | nil => intro cur acc; simp [parseRelAux]
  | cons c rest ih =>
    intro cur acc
    by_cases hc : isDigitAscii c = true
    · rw [parseRelAux_cons_digit rest cur acc hc]
      exact ih _ _
    · by_cases hdot : c = '.'
      · subst hdot
        cases rest with
        | nil =>
          rw [parseRelAux_stop_dot cur acc (Or.inl rfl)]
          simp
        | cons d t =>
          by_cases hd : isDigitAscii d = true
          · rw [parseRelAux_dot_digit t cur acc hd]
            exact ih _ _
          · rw [parseRelAux_stop_dot cur acc (Or.inr ⟨d, t, rfl, by simpa using hd⟩)]
            simp
      · rw [parseRelAux_stop_other rest cur acc (by simpa using hc) hdot]
        simp

theorem parseDev_release {cs : List Char} {rel : List Nat} {pre : Option (String × Nat)}
    {v : PyVersion} (h : parseDev cs rel pre = some v) : v.release = rel := by
  rw [parseDev] at h
  split at h
  · rw [Option.some.injEq] at h
    rw [← h]
  · dsimp only [] at h
    split at h <;> try split at h
    all_goals try split at h
    all_goals first
      | (rw [Option.some.injEq] at h; rw [← h])
      | exact absurd h (by simp)

theorem parseSuffix_release {cs : List Char} {rel : List Nat} {v : PyVersion}
    (h : parseSuffix cs rel = some v) : v.release = rel := by
  rw [parseSuffix] at h
  split at h
  · rw [Option.some.injEq] at h
    rw [← h]
  · dsimp only [] at h
    split at h <;> try split at h
    all_goals try split at h
    all_goals try split at h
    all_goals first
      | (rw [Option.some.injEq] at h; rw [← h])
      | exact parseDev_release h
      | exact absurd h (by simp)

theorem parseVersion_release_ne_nil {s : String} {v : PyVersion}
    (h : parseVersion s = some v) : v.release ≠ [] := by
  rw [parseVersion] at h
  try dsimp only [] at h
  split at h
  · split at h
    · try dsimp only [] at h
      rw [parseSuffix_release h]
      exact parseRelAux_fst_ne_nil _ [] []
    · exact absurd h (by simp)
  · exact absurd h (by simp)

theorem get_version_core_release {rel : List Nat} (h : rel ≠ []) :
    get_version_core (String.mk (renderRelease rel)) =
      .ok (String.mk (renderRelease rel),
        String.mk (renderRelease (bumpLast rel) ++ 'a' :: natToStr 1)) := by
  rw [get_version_core, parseVersion_renderRelease h]
  show (if isPrerelease ⟨rel, none, none⟩ = true then _ else _) = _
  simp only [isPrerelease, Option.isSome_none, Bool.or_self, Bool.false_eq_true, if_false]
  rw [show renderVersion ⟨rel, none, none⟩ = renderRelease rel from by
    rw [renderVersion, renderPre, renderDev, List.append_nil, List.append_nil]]
  try rfl

theorem get_version_core_pre {v : PyVersion} (h1 : v.release ≠ [])
    (h2 : preLettersOK v.pre = true) {p : String × Nat} (hp : v.pre = some p) :
    get_version_core (String.mk (renderVersion v)) =
      .ok (String.mk (renderVersion v),
        String.mk (renderRelease v.release ++ p.1.data ++ natToStr (p.2 + 1))) := by
  rw [get_version_core, parseVersion_render h1 h2]
  show (if isPrerelease v = true then _ else _) = _
  simp only [isPrerelease, hp, Option.isSome_some, Bool.true_or, if_true]
  try rfl

theorem get_version_core_plain {v : PyVersion} (h1 : v.release ≠ [])
    (hp : v.pre = none) (hd : v.dev = none) :
    get_version_core (String.mk (renderVersion v)) =
      .ok (String.mk (renderVersion v),
        String.mk (renderRelease (bumpLast v.release) ++ 'a' :: natToStr 1)) := by
  rw [get_version_core, parseVersion_render h1 (by rw [hp]; rfl)]
  show (if isPrerelease v = true then _ else _) = _
  simp only [isPrerelease, hp, hd, Option.isSome_none, Bool.or_self, Bool.false_eq_true,
    if_false]

theorem get_version_core_ne_invalid {s : String} {v : PyVersion}
    (h : parseVersion s = some v) :
    get_version_core s ≠ .error .invalidVersion := by
  rw [get_version_core, h]
  show (if isPrerelease v = true then _ else _) ≠ _
  split
  · split <;> simp
  · simp

/-! # Claim theorems -/

/-- C1: for every §3-valid input pair, `get_version` returns
`(current, next)` where with no requested version `current` is the
release-only projection of the embedded version and `next` bumps the last
release component and appends `a1`; with a requested version `current` is
that version verbatim and `next` bumps the pre-release integer when
`current` is a pre-release, else bumps the last release component and
appends `a1`; and the four worked cases hold exactly. -/
theorem C1_get_version_derivation :
    (∀ v : PyVersion, 2 ≤ v.release.length → v.dev = none → preLettersOK v.pre = true →
      get_version none [(("VER" : String), String.mk (renderVersion v))] =
        .ok (String.mk (renderRelease v.release),
          String.mk (renderRelease (bumpLast v.release) ++ 'a' :: natToStr 1)))
    ∧ (∀ (v : PyVersion) (md : List (String × String)),
        2 ≤ v.release.length → v.dev = none → preLettersOK v.pre = true →
        get_version (some (String.mk (renderVersion v))) md =
          .ok (String.mk (renderVersion v),
            match v.pre with
            | some p => String.mk (renderRelease v.release ++ p.1.data ++ natToStr (p.2 + 1))
            | none => String.mk (renderRelease (bumpLast v.release) ++ 'a' :: natToStr 1)))
    ∧ get_version none [(("VER" : String), "2.0a1")] = .ok ("2.0", "2.1a1")
    ∧ get_version none [(("VER" : String), "2.0")] = .ok ("2.0", "2.1a1")
    ∧ get_version none [(("VER" : String), "2.1")] = .ok ("2.1", "2.2a1")
    ∧ get_version (some ("2.0a1")) [(("VER" : String), "2.1")] = .ok ("2.0a1", "2.0a2") := by
  refine ⟨?_, ?_, by decide, by decide, by decide, by decide⟩
  · intro v h1 h2 h3
    have hne : v.release ≠ [] := by
      intro hcon
      rw [hcon] at h1
      simp at h1
    rw [get_version_none_eq, parseVersion_render hne h3]
    exact get_version_core_release hne
  · intro v md h1 h2 h3
    have hne : v.release ≠ [] := by
      intro hcon
      rw [hcon] at h1
      simp at h1
    show get_version_core (String.mk (renderVersion v)) = _
    cases hp : v.pre with
    | some p =>
      rw [get_version_core_pre hne (by rw [hp] at h3; rw [hp]; exact h3) hp]
    | none =>
      rw [get_version_core_plain hne hp h2]

/-- Witness for C1 at concrete pre-release and final-release inputs. -/
theorem C1_get_version_derivation_witness :
    get_version none
        [(("VER" : String), String.mk (renderVersion ⟨[2, 0], some (("a"), 1), none⟩))] =
      .ok (String.mk (renderRelease [2, 0]),
        String.mk (renderRelease (bumpLast [2, 0]) ++ 'a' :: natToStr 1)) ∧
    get_version (some (String.mk (renderVersion ⟨[2, 1], some (("a"), 3), none⟩))) [] =
      .ok (String.mk (renderVersion ⟨[2, 1], some (("a"), 3), none⟩),
        match (⟨[2, 1], some (("a"), 3), none⟩ : PyVersion).pre with
        | some p => String.mk (renderRelease [2, 1] ++ p.1.data ++ natToStr (p.2 + 1))
        | none => String.mk (renderRelease (bumpLast [2, 1]) ++ 'a' :: natToStr 1)) :=
  ⟨C1_get_version_derivation.1 ⟨[2, 0], some (("a"), 1), none⟩ (by decide) rfl (by decide),
   C1_get_version_derivation.2.1 ⟨[2, 1], some (("a"), 3), none⟩ [] (by decide) rfl (by decide)⟩

/-- C9 (amended): `get_version` raises `InvalidVersion` exactly when the
relevant input string fails to parse as a PEP 440 version; §3-invariant
violations that still parse are not rejected: a single-component embedded
version `2` yields `("2", "3a1")`, a dev-release requested version raises
`TypeError` (not `InvalidVersion`), and a dev-release embedded version is
accepted since only its release components are kept. -/
theorem C9_invalid_version_iff :
    (∀ (req : Option String) (s : String),
      (get_version req [(("VER" : String), s)] = .error .invalidVersion ↔
        parseVersion (req.getD s) = none))
    ∧ get_version none [(("VER" : String), "2")] = .ok ("2", "3a1")
    ∧ get_version (some ("2.0.dev1")) [(("VER" : String), "2.1")] = .error .typeError
    ∧ get_version none [(("VER" : String), "2.0.dev1")] = .ok ("2.0", "2.1a1") := by
  refine ⟨?_, by decide, by decide, by decide⟩
  intro req s
  cases req with
  | some r =>
    show get_version_core r = .error .invalidVersion ↔ parseVersion r = none
    constructor
    · intro h
      cases hp : parseVersion r with
      | none => rfl
      | some v => exact absurd h (get_version_core_ne_invalid hp)
    · intro h
      rw [get_version_core, h]
  | none =>
    cases hp : parseVersion s with
    | none =>
      rw [get_version_none_eq, hp]
      simp [hp]
    | some v =>
      rw [get_version_none_eq, hp]
      have hne := parseVersion_release_ne_nil hp
      have h2 := get_version_core_ne_invalid (parseVersion_renderRelease hne)
      simp only [Option.getD_none]
      constructor
      · intro h
        exact absurd h h2
      · intro h
        rw [hp] at h
        exact absurd h (by simp)

/-- Witness for C9: an unparseable embedded version raises `InvalidVersion`. -/
theorem C9_invalid_version_iff_witness :
    get_version none [(("VER" : String), "banana")] = .error .invalidVersion :=
  (C9_invalid_version_iff.1 none ("banana")).mpr (by decide)

/-- C9 counterexample: the claim demands `InvalidVersionFormat` for the
single-component version `2` (release component count below two), but the
code accepts it and returns a result. -/
theorem C9_counterexample :
    get_version none [(("VER" : String), "2")] = .ok ("2", "3a1") ∧
    (Except.ok (("2" : String), ("3a1" : String)) : Except PyErr (String × String)) ≠
      .error .invalidVersion :=
  ⟨by decide, by decide⟩

/-- C3: the header patch step fails, before any byte is rewritten, exactly
when the count of the bare `VER` substring differs from the count of the
qualified `"DIRACOS <VER>"` substring plus one; in particular zero bare
occurrences, or more than `qualified + 1` occurrences, fail. -/
theorem C3_patch_guard_iff :
    (∀ hdr ver target : List Char,
      (patchHeaderStep hdr ver target = none ↔
        countOcc hdr ver ≠ countOcc hdr (("DIRACOS " : String).data ++ ver) + 1))
    ∧ (∀ hdr ver target : List Char, countOcc hdr ver = 0 →
        patchHeaderStep hdr ver target = none)
    ∧ (∀ hdr ver target : List Char,
        countOcc hdr (("DIRACOS " : String).data ++ ver) + 1 < countOcc hdr ver →
        patchHeaderStep hdr ver target = none) := by
  have hiff : ∀ hdr ver target : List Char,
      patchHeaderStep hdr ver target = none ↔
        countOcc hdr ver ≠ countOcc hdr (("DIRACOS " : String).data ++ ver) + 1 := by
    intro hdr ver target
    rw [patchHeaderStep, headerPatchGuard]
    by_cases h : countOcc hdr ver = countOcc hdr (("DIRACOS " : String).data ++ ver) + 1
    · simp [h]
    · simp [h]
  refine ⟨hiff, ?_, ?_⟩
  · intro hdr ver target h0
    rw [hiff]
    omega
  · intro hdr ver target hlt
    rw [hiff]
    omega

/-- Witness for C3: a header not containing the version string at all makes
the patch step fail. -/
theorem C3_patch_guard_iff_witness :
    patchHeaderStep (("# VER: 2.0\nDIRACOS installer\n" : String).data) (("9.9" : String).data)
      (("1.0" : String).data) = none :=
  C3_patch_guard_iff.2.1 _ _ _ (by decide)

/-- C2 (amended): the orchestration loop applies the version derivation
once per platform, each time from that platform's own embedded metadata,
and patches each platform's header to its own derived version; the version
pair used after the loop (release tag and next-version bump) is the one
derived from the platform processed last, `linux-ppc64le`, not from the
designated `linux-64`. -/
theorem C2_loop_uses_last_platform :
    ∀ (req : Option String) (b1 b2 b3 p1 p2 p3 : List Char) (t1 n1 t2 n2 t3 n3 : String),
      processPlatform req b1 = .ok (p1, t1, n1) →
      processPlatform req b2 = .ok (p2, t2, n2) →
      processPlatform req b3 = .ok (p3, t3, n3) →
      mainVersionLoop req [b1, b2, b3] = .ok ([p1, p2, p3], t3, n3) := by
  intro req b1 b2 b3 p1 p2 p3 t1 n1 t2 n2 t3 n3 h1 h2 h3
  simp only [mainVersionLoop, h1, h2, h3]

/-- Witness for C2 (amended) on three concrete artifacts whose embedded
versions agree on the first two platforms and differ on the third. -/
theorem C2_loop_uses_last_platform_witness :
    mainVersionLoop none
        [(("# VER: 2.0\n@@END_HEADER@@A" : String)).data,
         (("# VER: 2.0\n@@END_HEADER@@B" : String)).data,
         (("# VER: 3.0\n@@END_HEADER@@C" : String)).data] =
      .ok ([(("# VER: 2.0\n@@END_HEADER@@A" : String)).data,
            (("# VER: 2.0\n@@END_HEADER@@B" : String)).data,
            (("# VER: 3.0\n@@END_HEADER@@C" : String)).data], "3.0", "3.1a1") :=
  C2_loop_uses_last_platform none _ _ _ _ _ _ ("2.0") ("2.1a1") ("2.0") ("2.1a1")
    ("3.0") ("3.1a1") (by decide) (by decide) (by decide)

/-- C2 counterexample: with differing embedded `VER` metadata and no
override, the loop's final version is the one derived from the *last*
platform (`3.0`), while the designated platform's (`linux-64`, first in
the list) metadata derives `2.0`; the headers are not patched to a single
common target version. -/
theorem C2_counterexample :
    mainVersionLoop none
        [(("# VER: 2.0\n@@END_HEADER@@A" : String)).data,
         (("# VER: 2.0\n@@END_HEADER@@B" : String)).data,
         (("# VER: 3.0\n@@END_HEADER@@C" : String)).data] =
      .ok ([(("# VER: 2.0\n@@END_HEADER@@A" : String)).data,
            (("# VER: 2.0\n@@END_HEADER@@B" : String)).data,
            (("# VER: 3.0\n@@END_HEADER@@C" : String)).data], "3.0", "3.1a1")
    ∧ get_version none (findMeta (("# VER: 2.0\n" : String)).data) = .ok ("2.0", "2.1a1")
    ∧ ("3.0" : String) ≠ "2.0" :=
  ⟨by decide, by decide, by decide⟩

/-- C4 (amended): when the uniqueness guard passes, the patch step rewrites
*every* occurrence of the old version string in the header — the qualified
`DIRACOS <old-version>` occurrences included, since `str.replace` replaces
all occurrences — and reassembles header, marker and body with the body
bytes unchanged. -/
theorem C4_patch_replaces_all :
    ∀ (req : Option String) (blob hdr body : List Char) (ver : String) (tn : String × String),
      splitOnFirst END_HEADER_MAGIC blob = some (hdr, body) →
      get_version req (findMeta hdr) = .ok tn →
      lookupLast (findMeta hdr) (("VER" : String)) = some ver →
      headerPatchGuard hdr ver.data = true →
      processPlatform req blob =
        .ok (replaceOcc hdr ver.data tn.1.data ++ END_HEADER_MAGIC ++ body, tn.1, tn.2) := by
  intro req blob hdr body ver tn hsplit hgv hlook hguard
  have hstep : patchHeaderStep hdr ver.data tn.1.data = some (replaceOcc hdr ver.data tn.1.data) := by
    rw [patchHeaderStep, hguard]
    simp
  rw [processPlatform, hsplit]
  simp only [hgv, hlook, hstep]

/-- Witness for C4 (amended) on a concrete artifact. -/
theorem C4_patch_replaces_all_witness :
    processPlatform none (("# VER: 2.0a1\n@@END_HEADER@@BODY" : String)).data =
      .ok (replaceOcc (("# VER: 2.0a1\n" : String)).data (("2.0a1" : String)).data
          (("2.0" : String)).data ++ END_HEADER_MAGIC ++ (("BODY" : String)).data,
        "2.0", "2.1a1") :=
  C4_patch_replaces_all none _ _ _ ("2.0a1") (("2.0"), ("2.1a1"))
    (by decide) (by decide) (by decide) (by decide)

/-- C4 counterexample: the qualified occurrence `DIRACOS 2.0a1` is *not*
left intact — `str.replace` rewrites it to `DIRACOS 2.0` — so the actual
output differs from the output the claim mandates (qualified occurrences
preserved). -/
theorem C4_counterexample :
    processPlatform none
        (("# NAME: DIRACOS 2.0a1\n# VER: 2.0a1\n@@END_HEADER@@B" : String)).data =
      .ok ((("# NAME: DIRACOS 2.0\n# VER: 2.0\n@@END_HEADER@@B" : String)).data, "2.0", "2.1a1")
    ∧ (("# NAME: DIRACOS 2.0\n# VER: 2.0\n@@END_HEADER@@B" : String)).data ≠
      (("# NAME: DIRACOS 2.0a1\n# VER: 2.0\n@@END_HEADER@@B" : String)).data :=
  ⟨by decide, by decide⟩

/-- C5: evidence for the code bug.  In a live run only `linux-64` carries
`environment_yaml`; for `linux-aarch64` the loop logs the "Skipping
upload" warning but then still evaluates
`installers[platform]["environment_yaml"]`, raising `KeyError`: the run
aborts after the aarch64 installer uploads, never reaching `linux-ppc64le`
or the publish step, instead of skipping the manifest uploads and
proceeding as the claim states. -/
theorem C5_env_upload_keyerror :
    make_release
        [(("linux-64" : String), ⟨some ("c0ffee"), some ("name: diracos" : String), ("I1")⟩),
         (("linux-aarch64" : String), ⟨none, none, ("I2")⟩),
         (("linux-ppc64le" : String), ⟨none, none, ("I3")⟩)] ("2.0") =
      ([.createDraft ("2.0") false,
        .upload ("DIRACOS-2.0-Linux-aarch64.sh"),
        .upload ("DIRACOS-Linux-aarch64.sh"),
        .upload ("DIRACOS-2.0-Linux-aarch64-environment.yaml"),
        .upload ("DIRACOS-Linux-aarch64-environment.yaml"),
        .upload ("DIRACOS-2.0-Linux-x86_64.sh"),
        .upload ("DIRACOS-Linux-x86_64.sh"),
        .warn skipEnvWarning], some .keyError) := by
  decide

/-- C10: the fixed platform-name mapping swaps the x86_64 and aarch64
labels relative to their platform identifiers — assets for `linux-64` are
named with `Linux-aarch64` and assets for `linux-aarch64` with
`Linux-x86_64`; only `linux-ppc64le` maps to its own label. -/
theorem C10_platform_label_swap :
    ∀ (v y c i : String),
      platformLabel ("linux-64") = some ("Linux-aarch64")
      ∧ platformLabel ("linux-aarch64") = some ("Linux-x86_64")
      ∧ platformLabel ("linux-ppc64le") = some ("Linux-ppc64le")
      ∧ uploadAssetsLoop v [(("linux-64" : String), ⟨some c, some y, i⟩)] =
          ([.upload ("DIRACOS-" ++ v ++ "-" ++ "Linux-aarch64" ++ ".sh"),
            .upload ("DIRACOS-" ++ "Linux-aarch64" ++ ".sh"),
            .upload ("DIRACOS-" ++ v ++ "-" ++ "Linux-aarch64" ++ "-environment.yaml"),
            .upload ("DIRACOS-" ++ "Linux-aarch64" ++ "-environment.yaml")], none)
      ∧ uploadAssetsLoop v [(("linux-aarch64" : String), ⟨none, some y, i⟩)] =
          ([.upload ("DIRACOS-" ++ v ++ "-" ++ "Linux-x86_64" ++ ".sh"),
            .upload ("DIRACOS-" ++ "Linux-x86_64" ++ ".sh"),
            .warn skipEnvWarning,
            .upload ("DIRACOS-" ++ v ++ "-" ++ "Linux-x86_64" ++ "-environment.yaml"),
            .upload ("DIRACOS-" ++ "Linux-x86_64" ++ "-environment.yaml")], none) := by
  intro v y c i
  exact ⟨by decide, by decide, by decide, rfl, rfl⟩

/-- C8 (amended): the monotonicity guard and the exactly-once substitution
requirement hold whenever the version-declaration pattern matches at all:
if the pattern is found and the stored version is greater than or equal to
the requested next version, no write occurs and the run succeeds; on the
write path a match count other than one is fatal; and when the pattern is
absent the bump fails with the not-found error.  Note the pattern
`version: *(\d+\.\d.+) *\n` needs at least one character after the first
two numeric digits, so a file reading exactly `version: 2.2\n` does not
match and the run fails rather than skipping. -/
theorem C8_bump_guard :
    (∀ (data : List Char) (newV : String), searchConstructVersion data = none →
      bump_version_in_main data newV = .error .notImplementedError)
    ∧ (∀ (data : List Char) (newV : String) (cap : List Char) (nv sv : PyVersion),
        searchConstructVersion data = some cap →
        parseVersion newV = some nv →
        parseVersion (String.mk cap) = some sv →
        ((vleB nv sv = true → bump_version_in_main data newV = .ok .skipped)
          ∧ (vleB nv sv = false → (subnConstructVersion data newV).2 ≠ 1 →
              bump_version_in_main data newV = .error .runtimeError)
          ∧ (vleB nv sv = false → (subnConstructVersion data newV).2 = 1 →
              bump_version_in_main data newV =
                .ok (.written (subnConstructVersion data newV).1))))
    ∧ bump_version_in_main (("version: 2.2 \n" : String)).data ("2.1a1") = .ok .skipped := by
  refine ⟨?_, ?_, by decide⟩
  · intro data newV h
    rw [bump_version_in_main, h]
  · intro data newV cap nv sv hs hn hc
    refine ⟨?_, ?_, ?_⟩
    · intro hle
      rw [bump_version_in_main]
      simp only [hs, hn, hc, hle, if_true]
    · intro hle hcount
      rw [bump_version_in_main]
      simp only [hs, hn, hc, hle, Bool.false_eq_true, if_false]
      simp only [ne_eq, hcount, not_false_eq_true, if_true]
    · intro hle hcount
      rw [bump_version_in_main]
      simp only [hs, hn, hc, hle, Bool.false_eq_true, if_false]
      simp only [ne_eq, hcount, not_true_eq_false, if_false]

/-- Witness for C8: skip on a stored `2.2 ` (trailing space) with next
`2.1a1`, and the not-found error when the pattern is absent. -/
theorem C8_bump_guard_witness :
    bump_version_in_main (("version: 2.2 \n" : String)).data ("2.1a1") = .ok .skipped ∧
    bump_version_in_main (("no version here\n" : String)).data ("2.1a1") =
      .error .notImplementedError :=
  ⟨(C8_bump_guard.2.1 (("version: 2.2 \n" : String)).data ("2.1a1") (("2.2 " : String)).data
      ⟨[2, 1], some (("a"), 1), none⟩ ⟨[2, 2], none, none⟩
      (by decide) (by decide) (by decide)).1 (by decide),
   C8_bump_guard.1 (("no version here\n" : String)).data ("2.1a1") (by decide)⟩

/-- C8 counterexample: the claim's example file content `version: 2.2`
(with nothing after the second digit before the newline) does not match
the declaration pattern, so the bump raises the not-found error instead of
leaving the file unchanged and succeeding. -/
theorem C8_counterexample :
    bump_version_in_main (("version: 2.2\n" : String)).data ("2.1a1") =
      .error .notImplementedError
    ∧ (Except.error PyErr.notImplementedError : Except PyErr BumpResult) ≠ .ok .skipped :=
  ⟨by decide, by decide⟩

/-! ## Build-normalization lemmas (C6) -/

theorem drop_length_takeWhile (p : Char → Bool) (l : List Char) :
    l.drop (l.takeWhile p).length = l.dropWhile p := by
  induction l with
  | nil => rfl
  | cons c t ih =>
    rw [List.takeWhile_cons, List.dropWhile_cons]
    by_cases h : p c = true
    · simp only [h, if_true, List.length_cons, List.drop_succ_cons]
      exact ih
    · simp only [Bool.not_eq_true] at h
      simp [h]

theorem dropWhile_all_true {p : Char → Bool} {m : List Char}
    (h : ∀ c ∈ m, p c = true) : m.dropWhile p = [] := by
  induction m with
  | nil => rfl
  | cons c t ih =>
    rw [List.dropWhile_cons, if_pos (h c (List.mem_cons_self c t))]
    exact ih fun d hd => h d (List.mem_cons_of_mem c hd)

theorem mem_split_first {l2 : List Char} (h : '=' ∈ l2) :
    ∃ a b, l2 = a ++ '=' :: b ∧ (∀ c ∈ a, c ≠ '=') := by
  have hsplit := List.takeWhile_append_dropWhile (p := fun c => c ≠ '=') (l := l2)
  cases hd : l2.dropWhile (fun c => c ≠ '=') with
  | nil =>
    exfalso
    rw [hd, List.append_nil] at hsplit
    have := List.mem_takeWhile_imp (by rw [hsplit]; exact h)
    simp at this
  | cons c b =>
    have hc : ¬(c ≠ '=') := by
      have := List.head_dropWhile_not (p := fun c => c ≠ '=') (l := l2)
      rw [hd] at this
      simpa using this (by simp)
    refine ⟨l2.takeWhile (fun c => c ≠ '='), b, ?_, ?_⟩
    · push_neg at hc
      subst hc
      rw [← hd, hsplit]
    · intro d hdm
      have := List.mem_takeWhile_imp hdm
      simpa using this

theorem ne_nil_isEmpty_false {m : List Char} (h : m ≠ []) : m.isEmpty = false := by
  cases m with
  | nil => exact absurd rfl h
  | cons c t => rfl

theorem neBool_of_ne {c d : Char} (h : c ≠ d) : (fun e => decide (e ≠ d)) c = true :=
  decide_eq_true h

/-- `tryPin` on a fully decomposed pin line: the match keeps group 1 and
spans through the `z` field exactly. -/
theorem tryPin_parts {w x y z u s : List Char}
    (hs : s = w ++ '-' :: ' ' :: (x ++ '=' :: (y ++ '=' :: (z ++ u))))
    (hw : w ≠ []) (hwall : ∀ c ∈ w, pyWs c = true)
    (hx : x ≠ []) (hxe : ∀ c ∈ x, c ≠ '=')
    (hy : y ≠ []) (hye : ∀ c ∈ y, c ≠ '=')
    (hz : z ≠ []) (hze : ∀ c ∈ z, c ≠ '=') (hznl : ('\n' : Char) ∉ z)
    (htail : u = [] ∨ ∃ a b, u = '\n' :: (a ++ '=' :: b) ∧
      (∀ c ∈ a, c ≠ '=') ∧ ('\n' : Char) ∉ a) :
    tryPin s = some (w ++ '-' :: ' ' :: (x ++ '=' :: y),
      w.length + 2 + x.length + 1 + y.length + 1 + z.length) := by
  subst hs
  have htw : (w ++ '-' :: ' ' :: (x ++ '=' :: (y ++ '=' :: (z ++ u)))).takeWhile pyWs = w := by
    rw [takeWhile_append_all _ hwall, takeWhile_cons_false _ (by decide), List.append_nil]
  have hdropA : (w ++ '-' :: ' ' :: (x ++ '=' :: (y ++ '=' :: (z ++ u)))).drop w.length =
      '-' :: ' ' :: (x ++ '=' :: (y ++ '=' :: (z ++ u))) := List.drop_left w _
  have htx : (x ++ '=' :: (y ++ '=' :: (z ++ u))).takeWhile (fun c => c ≠ '=') = x := by
    rw [takeWhile_append_all _ (fun c hc => neBool_of_ne (hxe c hc)),
      takeWhile_cons_false _ (by decide), List.append_nil]
  have hdropx : (x ++ '=' :: (y ++ '=' :: (z ++ u))).drop x.length =
      '=' :: (y ++ '=' :: (z ++ u)) := List.drop_left x _
  have hty : (y ++ '=' :: (z ++ u)).takeWhile (fun c => c ≠ '=') = y := by
    rw [takeWhile_append_all _ (fun c hc => neBool_of_ne (hye c hc)),
      takeWhile_cons_false _ (by decide), List.append_nil]
  have hdropy : (y ++ '=' :: (z ++ u)).drop y.length = '=' :: (z ++ u) :=
    List.drop_left y _
  rcases htail with rfl | ⟨a, b, rfl, hae, hanl⟩
  · have hr : (z ++ ([] : List Char)).takeWhile (fun c => c ≠ '=') = z := by
      rw [List.append_nil]
      exact takeWhile_all fun c hc => neBool_of_ne (hze c hc)
    have hdropr : (z ++ ([] : List Char)).drop z.length = [] := by
      rw [List.append_nil, List.drop_length]
    have hpick : pickZ z [] = some z := by
      rw [pickZ]
      simp [ne_nil_isEmpty_false hz]
    rw [tryPin]
    simp only [htw, ne_nil_isEmpty_false hw, Bool.false_eq_true, if_false, hdropA]
    simp only [and_self, if_true, htx, ne_nil_isEmpty_false hx, hdropx, hty,
      ne_nil_isEmpty_false hy, hdropy, hr, hdropr, hpick]
    rfl
  · have hrplus : ('\n' :: (a ++ '=' :: b)).takeWhile (fun c => c ≠ '=') = '\n' :: a := by
      rw [List.takeWhile_cons,
        if_pos (by decide : ((fun c => decide (c ≠ '=')) '\n') = true),
        takeWhile_append_all _ (fun c hc => neBool_of_ne (hae c hc)),
        takeWhile_cons_false b (by decide : ((fun c => decide (c ≠ '=')) '=') = false),
        List.append_nil]
    have hr : (z ++ '\n' :: (a ++ '=' :: b)).takeWhile (fun c => c ≠ '=') = z ++ '\n' :: a := by
      rw [takeWhile_append_all _ (fun c hc => neBool_of_ne (hze c hc)), hrplus]
    have hshape : z ++ '\n' :: (a ++ '=' :: b) = (z ++ '\n' :: a) ++ '=' :: b := by
      simp
    have hdropr : (z ++ '\n' :: (a ++ '=' :: b)).drop (z ++ '\n' :: a).length = '=' :: b := by
      rw [hshape]
      exact List.drop_left _ _
    have hpick : pickZ (z ++ '\n' :: a) ('=' :: b) = some z := by
      rw [pickZ]
      simp only [List.isEmpty_cons, Bool.false_eq_true, if_false]
      rw [zUpToLastNl]
      have hrev : (z ++ '\n' :: a).reverse = a.reverse ++ '\n' :: z.reverse := by
        simp
      rw [hrev, dropWhile_append_all _ (fun c hc => neBool_of_ne
        (fun hcon => hanl (by rw [← hcon]; exact List.mem_reverse.mp hc)))]
      rw [List.dropWhile_cons]
      simp only [(by decide : (fun c => decide (c ≠ '\n')) '\n' = false),
        Bool.false_eq_true, if_false]
      have hzr : z.reverse.isEmpty = false :=
        ne_nil_isEmpty_false (by simpa using hz)
      simp [hzr]
    rw [tryPin]
    simp only [htw, ne_nil_isEmpty_false hw, Bool.false_eq_true, if_false, hdropA]
    simp only [and_self, if_true, htx, ne_nil_isEmpty_false hx, hdropx, hty,
      ne_nil_isEmpty_false hy, hdropy, hr, hdropr, hpick]
    rfl

theorem buildSubAux_cons_succ (c : Char) (rest : List Char) (b : Bool) (k : Nat) :
    buildSubAux (c :: rest) b (k + 1) = buildSubAux rest (c = '\n') k := rfl

theorem buildSubAux_cons_false (c : Char) (rest : List Char) :
    buildSubAux (c :: rest) false 0 = c :: buildSubAux rest (c = '\n') 0 := rfl

theorem buildSubAux_nl (s : List Char) :
    buildSubAux ('\n' :: s) false 0 = '\n' :: buildSubAux s true 0 := rfl

theorem buildSubAux_cons_true (c : Char) (rest : List Char) :
    buildSubAux (c :: rest) true 0 =
      match tryPin (c :: rest) with
      | some gl => gl.1 ++ buildSubAux rest (c = '\n') (gl.2 - 1)
      | none => c :: buildSubAux rest (c = '\n') 0 := rfl

/-- Skipping the remainder of an emitted match: after consuming `m ++ [d]`
the scan is at skip `0` with the line-start flag set by `d`. -/
theorem buildSubAux_skip (m : List Char) (d : Char) (s : List Char) (b : Bool) :
    buildSubAux (m ++ d :: s) b (m.length + 1) = buildSubAux s (d = '\n') 0 := by
  induction m generalizing b with
  | nil => rfl
  | cons c t ih =>
    show buildSubAux (c :: (t ++ d :: s)) b (t.length + 1 + 1) = _
    rw [buildSubAux_cons_succ]
    exact ih _

/-- Away from a line start the scan copies a newline-free block verbatim. -/
theorem buildSubAux_pass (m : List Char) : ('\n' : Char) ∉ m → ∀ s : List Char,
    buildSubAux (m ++ s) false 0 = m ++ buildSubAux s false 0 := by
  induction m with
  | nil => intro _ _; rfl
  | cons c t ih =>
    intro hm s
    have hc : (decide (c = '\n')) = false :=
      decide_eq_false fun h => hm (by rw [h]; exact List.mem_cons_self _ _)
    show buildSubAux (c :: (t ++ s)) false 0 = c :: (t ++ buildSubAux s false 0)
    rw [buildSubAux_cons_false, hc, ih (fun hmem => hm (List.mem_cons_of_mem _ hmem)) s]

/-- No match of the `^\s+`-anchored pattern starts on a line whose first
character is not whitespace. -/
theorem tryPin_headNonWs {l : List Char} (t : List Char) (h : headNonWs l = true) :
    tryPin (l ++ t) = none := by
  cases l with
  | nil => exact absurd h (by decide)
  | cons c u =>
    have hc : pyWs c = false := by
      rw [headNonWs] at h
      simpa using h
    rw [tryPin]
    simp [List.takeWhile_cons, hc]

theorem pinLine_headNonWs {l : List Char} (h : headNonWs l = true) :
    pinLine l = false := by
  cases l with
  | nil => exact absurd h (by decide)
  | cons c u =>
    have hc : pyWs c = false := by
      rw [headNonWs] at h
      simpa using h
    rw [pinLine]
    simp [List.takeWhile_cons, hc]

/-- `pinLine` holds on a fully decomposed pin line. -/
theorem pinLine_parts {w x y z : List Char}
    (hw : w ≠ []) (hwall : ∀ c ∈ w, pyWs c = true)
    (hx : x ≠ []) (hxe : ∀ c ∈ x, c ≠ '=')
    (hy : y ≠ []) (hye : ∀ c ∈ y, c ≠ '=')
    (hz : z ≠ []) (hze : ∀ c ∈ z, c ≠ '=') :
    pinLine (w ++ '-' :: ' ' :: (x ++ '=' :: (y ++ '=' :: z))) = true := by
  have htw : (w ++ '-' :: ' ' :: (x ++ '=' :: (y ++ '=' :: z))).takeWhile pyWs = w := by
    rw [takeWhile_append_all _ hwall, takeWhile_cons_false _ (by decide), List.append_nil]
  have hdropA : (w ++ '-' :: ' ' :: (x ++ '=' :: (y ++ '=' :: z))).drop w.length =
      '-' :: ' ' :: (x ++ '=' :: (y ++ '=' :: z)) := List.drop_left w _
  have htx : (x ++ '=' :: (y ++ '=' :: z)).takeWhile (fun c => c ≠ '=') = x := by
    rw [takeWhile_append_all _ (fun c hc => neBool_of_ne (hxe c hc)),
      takeWhile_cons_false _ (by decide), List.append_nil]
  have hdropx : (x ++ '=' :: (y ++ '=' :: z)).drop x.length = '=' :: (y ++ '=' :: z) :=
    List.drop_left x _
  have hty : (y ++ '=' :: z).takeWhile (fun c => c ≠ '=') = y := by
    rw [takeWhile_append_all _ (fun c hc => neBool_of_ne (hye c hc)),
      takeWhile_cons_false _ (by decide), List.append_nil]
  have hdropy : (y ++ '=' :: z).drop y.length = '=' :: z := List.drop_left y _
  rw [pinLine]
  simp only [htw, ne_nil_isEmpty_false hw, Bool.false_eq_true, if_false, hdropA,
    and_self, if_true, htx, ne_nil_isEmpty_false hx, hdropx, hty,
    ne_nil_isEmpty_false hy, hdropy]
  simp only [ne_nil_isEmpty_false hz, Bool.not_false, Bool.true_and, decide_True,
    Bool.and_eq_true, List.all_eq_true]
  exact fun c hc => decide_eq_true (hze c hc)

/-- `dropBuildLine` on a fully decomposed pin line keeps the first two fields. -/
theorem dropBuildLine_parts {w x y z : List Char}
    (hw : w ≠ []) (hwall : ∀ c ∈ w, pyWs c = true)
    (hx : x ≠ []) (hxe : ∀ c ∈ x, c ≠ '=')
    (hy : y ≠ []) (hye : ∀ c ∈ y, c ≠ '=')
    (hz : z ≠ []) (hze : ∀ c ∈ z, c ≠ '=') :
    dropBuildLine (w ++ '-' :: ' ' :: (x ++ '=' :: (y ++ '=' :: z))) =
      w ++ '-' :: ' ' :: (x ++ '=' :: y) := by
  have htw : (w ++ '-' :: ' ' :: (x ++ '=' :: (y ++ '=' :: z))).takeWhile pyWs = w := by
    rw [takeWhile_append_all _ hwall, takeWhile_cons_false _ (by decide), List.append_nil]
  have hdropA : (w ++ '-' :: ' ' :: (x ++ '=' :: (y ++ '=' :: z))).drop w.length =
      '-' :: ' ' :: (x ++ '=' :: (y ++ '=' :: z)) := List.drop_left w _
  have htx : (x ++ '=' :: (y ++ '=' :: z)).takeWhile (fun c => c ≠ '=') = x := by
    rw [takeWhile_append_all _ (fun c hc => neBool_of_ne (hxe c hc)),
      takeWhile_cons_false _ (by decide), List.append_nil]
  have hdropx : (x ++ '=' :: (y ++ '=' :: z)).drop x.length = '=' :: (y ++ '=' :: z) :=
    List.drop_left x _
  have hty : (y ++ '=' :: z).takeWhile (fun c => c ≠ '=') = y := by
    rw [takeWhile_append_all _ (fun c hc => neBool_of_ne (hye c hc)),
      takeWhile_cons_false _ (by decide), List.append_nil]
  rw [dropBuildLine, if_pos (pinLine_parts hw hwall hx hxe hy hye hz hze)]
  simp only [htw, hdropA, htx, hdropx, hty]

/-- A line accepted by `pinLine` decomposes into its four fields. -/
theorem pinLine_decomp {l : List Char} (h : pinLine l = true) :
    ∃ w x y z, l = w ++ '-' :: ' ' :: (x ++ '=' :: (y ++ '=' :: z)) ∧
      w ≠ [] ∧ (∀ c ∈ w, pyWs c = true) ∧
      x ≠ [] ∧ (∀ c ∈ x, c ≠ '=') ∧
      y ≠ [] ∧ (∀ c ∈ y, c ≠ '=') ∧
      z ≠ [] ∧ (∀ c ∈ z, c ≠ '=') := by
  rw [pinLine] at h
  dsimp only [] at h
  split at h
  · exact absurd h (by simp)
  case isFalse hwe =>
  split at h
  case h_2 => exact absurd h (by simp)
  case h_1 c1 c2 u hd =>
  split at h
  case isFalse => exact absurd h (by simp)
  case isTrue hc12 =>
  obtain ⟨hc1, hc2⟩ := hc12
  subst hc1; subst hc2
  split at h
  · exact absurd h (by simp)
  case isFalse hxe0 =>
  split at h
  case h_2 => exact absurd h (by simp)
  case h_1 c3 u2 hdx =>
  split at h
  case isFalse => exact absurd h (by simp)
  case isTrue hc3 =>
  subst hc3
  split at h
  · exact absurd h (by simp)
  case isFalse hye0 =>
  split at h
  case h_2 => exact absurd h (by simp)
  case h_1 c5 z hdy =>
  simp only [Bool.and_eq_true, decide_eq_true_eq, Bool.not_eq_true', List.all_eq_true] at h
  obtain ⟨hc5, hze0, hzall⟩ := h
  subst hc5
  refine ⟨l.takeWhile pyWs, u.takeWhile (fun c => c ≠ '='),
    u2.takeWhile (fun c => c ≠ '='), z, ?_, ?_, ?_, ?_, ?_, ?_, ?_, ?_, ?_⟩
  · conv_lhs => rw [← List.takeWhile_append_dropWhile (p := pyWs) (l := l)]
    rw [← drop_length_takeWhile, hd]
    congr 2
    conv_lhs => rw [← List.takeWhile_append_dropWhile (p := fun c => c ≠ '=') (l := u)]
    rw [← drop_length_takeWhile, hdx]
    congr 2
    conv_lhs => rw [← List.takeWhile_append_dropWhile (p := fun c => c ≠ '=') (l := u2)]
    rw [← drop_length_takeWhile, hdy]
  · intro hnil
    rw [hnil] at hwe
    exact hwe rfl
  · intro c hc
    exact List.mem_takeWhile_imp hc
  · intro hnil
    rw [hnil] at hxe0
    exact hxe0 rfl
  · intro c hc
    simpa using List.mem_takeWhile_imp hc
  · intro hnil
    rw [hnil] at hye0
    exact hye0 rfl
  · intro c hc
    simpa using List.mem_takeWhile_imp hc
  · intro hnil
    rw [hnil] at hze0
    simp at hze0
  · exact hzall

theorem buildSubAux_cons_some {c : Char} {rest g : List Char} {L : Nat}
    (h : tryPin (c :: rest) = some (g, L)) :
    buildSubAux (c :: rest) true 0 = g ++ buildSubAux rest (c = '\n') (L - 1) := by
  rw [buildSubAux_cons_true, h]

theorem buildSubAux_cons_none {c : Char} {rest : List Char}
    (h : tryPin (c :: rest) = none) :
    buildSubAux (c :: rest) true 0 = c :: buildSubAux rest (c = '\n') 0 := by
  rw [buildSubAux_cons_true, h]

/-- A pin line that is the whole remaining text is rewritten to its first
two fields. -/
theorem buildSub_pin_last {l : List Char} (hp : pinLine l = true)
    (hnl : ('\n' : Char) ∉ l) :
    buildSubAux l true 0 = dropBuildLine l := by
  obtain ⟨w, x, y, z, hl, hw, hwall, hx, hxe, hy, hye, hz, hze⟩ := pinLine_decomp hp
  have hznl : ('\n' : Char) ∉ z := by
    intro hm
    exact hnl (by rw [hl]; simp [hm])
  subst hl
  rcases List.eq_nil_or_concat z with rfl | ⟨z', d, hzc⟩
  · exact absurd rfl hz
  rw [List.concat_eq_append] at hzc
  subst hzc
  cases w with
  | nil => exact absurd rfl hw
  | cons cw tw =>
  have htp : tryPin ((cw :: tw) ++ '-' :: ' ' ::
      (x ++ '=' :: (y ++ '=' :: (z' ++ [d])))) =
      some ((cw :: tw) ++ '-' :: ' ' :: (x ++ '=' :: y),
        (cw :: tw).length + 2 + x.length + 1 + y.length + 1 + (z' ++ [d]).length) := by
    have := tryPin_parts (w := cw :: tw) (x := x) (y := y) (z := z' ++ [d])
      (u := []) rfl hw hwall hx hxe hy hye hz hze hznl (Or.inl rfl)
    rw [List.append_nil] at this
    exact this
  rw [dropBuildLine_parts hw hwall hx hxe hy hye hz hze]
  rw [List.cons_append] at htp ⊢
  rw [buildSubAux_cons_some htp]
  have hlen : (cw :: tw).length + 2 + x.length + 1 + y.length + 1 +
      (z' ++ [d]).length - 1 =
      (tw ++ '-' :: ' ' :: (x ++ '=' :: (y ++ '=' :: z'))).length + 1 := by
    simp [List.length_append, List.length_cons]
    omega
  have hsh : tw ++ '-' :: ' ' :: (x ++ '=' :: (y ++ '=' :: (z' ++ [d]))) =
      (tw ++ '-' :: ' ' :: (x ++ '=' :: (y ++ '=' :: z'))) ++ d :: [] := by
    simp
  rw [hlen, hsh, buildSubAux_skip]
  rw [show buildSubAux [] (decide (d = '\n')) 0 = [] from rfl, List.append_nil]

/-- A pin line followed by `'\n'` and a remainder whose `=`-free prefix is
newline-free: the match stops at the pin line and the scan resumes at the
next line start. -/
theorem buildSub_pin_mid {l R : List Char} (hp : pinLine l = true)
    (hnl : ('\n' : Char) ∉ l) (a b : List Char) (hR : R = a ++ '=' :: b)
    (hae : ∀ c ∈ a, c ≠ '=') (hanl : ('\n' : Char) ∉ a) :
    buildSubAux (l ++ '\n' :: R) true 0 =
      dropBuildLine l ++ '\n' :: buildSubAux R true 0 := by
  obtain ⟨w, x, y, z, hl, hw, hwall, hx, hxe, hy, hye, hz, hze⟩ := pinLine_decomp hp
  have hznl : ('\n' : Char) ∉ z := by
    intro hm
    exact hnl (by rw [hl]; simp [hm])
  subst hl
  subst hR
  rcases List.eq_nil_or_concat z with rfl | ⟨z', d, hzc⟩
  · exact absurd rfl hz
  rw [List.concat_eq_append] at hzc
  subst hzc
  have hdnl : d ≠ '\n' := fun hdeq => hznl (by subst hdeq; simp)
  cases w with
  | nil => exact absurd rfl hw
  | cons cw tw =>
  have htp : tryPin (((cw :: tw) ++ '-' :: ' ' ::
      (x ++ '=' :: (y ++ '=' :: (z' ++ [d])))) ++ '\n' :: (a ++ '=' :: b)) =
      some ((cw :: tw) ++ '-' :: ' ' :: (x ++ '=' :: y),
        (cw :: tw).length + 2 + x.length + 1 + y.length + 1 + (z' ++ [d]).length) := by
    exact tryPin_parts (w := cw :: tw) (x := x) (y := y) (z := z' ++ [d])
      (u := '\n' :: (a ++ '=' :: b)) (by simp) hw hwall hx hxe hy hye hz hze hznl
      (Or.inr ⟨a, b, rfl, hae, hanl⟩)
  rw [dropBuildLine_parts hw hwall hx hxe hy hye hz hze]
  rw [List.cons_append, List.cons_append] at htp ⊢
  rw [buildSubAux_cons_some htp]
  have hlen : (cw :: tw).length + 2 + x.length + 1 + y.length + 1 +
      (z' ++ [d]).length - 1 =
      (tw ++ '-' :: ' ' :: (x ++ '=' :: (y ++ '=' :: z'))).length + 1 := by
    simp [List.length_append, List.length_cons]
    omega
  have hsh : (tw ++ '-' :: ' ' :: (x ++ '=' :: (y ++ '=' :: (z' ++ [d])))) ++
      '\n' :: (a ++ '=' :: b) =
      (tw ++ '-' :: ' ' :: (x ++ '=' :: (y ++ '=' :: z'))) ++
        d :: ('\n' :: (a ++ '=' :: b)) := by
    simp
  rw [hlen, hsh, buildSubAux_skip]
  have hdf : (decide (d = '\n')) = false := decide_eq_false hdnl
  rw [hdf, buildSubAux_nl]

/-- A line starting with a non-whitespace character passes through and the
scan resumes at the next line start. -/
theorem buildSub_nonpin_mid {l R : List Char} (hh : headNonWs l = true)
    (hnl : ('\n' : Char) ∉ l) :
    buildSubAux (l ++ '\n' :: R) true 0 = l ++ '\n' :: buildSubAux R true 0 := by
  cases l with
  | nil => exact absurd hh (by decide)
  | cons c u =>
  have hun : ('\n' : Char) ∉ u := fun hm => hnl (List.mem_cons_of_mem _ hm)
  have hcn : (decide (c = '\n')) = false :=
    decide_eq_false fun he => hnl (by rw [he]; exact List.mem_cons_self _ _)
  have htp := tryPin_headNonWs (l := c :: u) ('\n' :: R) hh
  rw [List.cons_append] at htp ⊢
  rw [buildSubAux_cons_none htp, hcn, buildSubAux_pass u hun, buildSubAux_nl]
  rfl

/-- A line starting with a non-whitespace character, at the end of the
text, passes through. -/
theorem buildSub_nonpin_last {l : List Char} (hh : headNonWs l = true)
    (hnl : ('\n' : Char) ∉ l) :
    buildSubAux l true 0 = l := by
  cases l with
  | nil => rfl
  | cons c u =>
  have hun : ('\n' : Char) ∉ u := fun hm => hnl (List.mem_cons_of_mem _ hm)
  have hcn : (decide (c = '\n')) = false :=
    decide_eq_false fun he => hnl (by rw [he]; exact List.mem_cons_self _ _)
  have htp := tryPin_headNonWs (l := c :: u) [] hh
  rw [List.append_nil] at htp
  have hpass : buildSubAux u false 0 = u := by
    have h0 := buildSubAux_pass u hun []
    rw [List.append_nil] at h0
    rw [h0, show buildSubAux ([] : List Char) false 0 = [] from rfl, List.append_nil]
  rw [buildSubAux_cons_none htp, hcn, hpass]

theorem dropBuildLine_nonpin {l : List Char} (h : pinLine l = false) :
    dropBuildLine l = l := by
  rw [dropBuildLine, if_neg (by simp [h])]

/-- The scan processes a well-formed manifest line by line. -/
theorem buildNormalize_lineByLine : ∀ lines : List (List Char),
    (∀ l ∈ lines, ('\n' : Char) ∉ l) →
    (∀ l ∈ lines, pinLine l = true ∨ headNonWs l = true) →
    pinsFollowedOk lines = true →
    buildNormalize (joinLines lines) = joinLines (lines.map dropBuildLine)
  | [], _, _, _ => rfl
  | [l], h1, h2, _ => by
    rcases h2 l (by simp) with hp | hh
    · show buildSubAux l true 0 = joinLines [dropBuildLine l]
      rw [buildSub_pin_last hp (h1 l (by simp))]
      rfl
    · show buildSubAux l true 0 = joinLines [dropBuildLine l]
      rw [dropBuildLine_nonpin (pinLine_headNonWs hh)]
      exact buildSub_nonpin_last hh (h1 l (by simp))
  | l1 :: l2 :: rest, h1, h2, h3 => by
    rw [pinsFollowedOk] at h3
    rw [Bool.and_eq_true] at h3
    obtain ⟨h3a, h3b⟩ := h3
    have ih := buildNormalize_lineByLine (l2 :: rest)
      (fun l hl => h1 l (List.mem_cons_of_mem _ hl))
      (fun l hl => h2 l (List.mem_cons_of_mem _ hl)) h3b
    show buildSubAux (l1 ++ '\n' :: joinLines (l2 :: rest)) true 0 =
      dropBuildLine l1 ++ '\n' :: joinLines ((l2 :: rest).map dropBuildLine)
    rcases h2 l1 (by simp) with hp | hh
    · have hcont : l2.contains '=' = true := by
        rw [hp] at h3a
        simpa using h3a
      have hmem : ('=' : Char) ∈ l2 := by
        simpa [List.contains] using hcont
      obtain ⟨a, b, hsplit, hae⟩ := mem_split_first hmem
      have hanl : ('\n' : Char) ∉ a := fun hm =>
        (h1 l2 (by simp)) (hsplit ▸ List.mem_append_left _ hm)
      have hJ : ∃ B, joinLines (l2 :: rest) = a ++ '=' :: B := by
        cases rest with
        | nil => exact ⟨b, hsplit⟩
        | cons l3 r3 =>
          refine ⟨b ++ '\n' :: joinLines (l3 :: r3), ?_⟩
          show l2 ++ '\n' :: joinLines (l3 :: r3) = _
          rw [hsplit]
          simp
      obtain ⟨B, hJ⟩ := hJ
      rw [buildSub_pin_mid hp (h1 l1 (by simp)) a B hJ hae hanl]
      rw [show buildNormalize (joinLines (l2 :: rest)) =
        buildSubAux (joinLines (l2 :: rest)) true 0 from rfl] at ih
      rw [ih]
    · rw [buildSub_nonpin_mid hh (h1 l1 (by simp))]
      rw [dropBuildLine_nonpin (pinLine_headNonWs hh)]
      rw [show buildNormalize (joinLines (l2 :: rest)) =
        buildSubAux (joinLines (l2 :: rest)) true 0 from rfl] at ih
      rw [ih]

/-- C6: the build-string normalization before the second diff is line-local
and order-preserving only on manifests whose lines each either match the
source pattern's line form `^\s+- <name>=<version>=<build>` (with at least
one leading whitespace character, three nonempty `=`-free fields) or start
with a non-whitespace character, and where every pin line other than the
last is followed by a line containing `=`; on such a manifest it drops the
trailing `=<build>` field from exactly the pin lines and passes every other
line through unchanged.  (The claim's `^\s*` pattern is wrong: a pin line
with zero leading whitespace is passed through unchanged, see the
counterexample.) -/
theorem C6_build_normalization (lines : List (List Char))
    (h1 : ∀ l ∈ lines, ('\n' : Char) ∉ l)
    (h2 : ∀ l ∈ lines, pinLine l = true ∨ headNonWs l = true)
    (h3 : pinsFollowedOk lines = true) :
    buildNormalize (joinLines lines) = joinLines (lines.map dropBuildLine) :=
  buildNormalize_lineByLine lines h1 h2 h3

theorem C6_build_normalization_witness :
    ((∀ l ∈ [("dependencies:".data), ("  - python=3.9.7=h88f2ebf_3".data),
        ("  - pip=21.2.4=pyhd8ed1ab_0".data)], ('\n' : Char) ∉ l) ∧
      (∀ l ∈ [("dependencies:".data), ("  - python=3.9.7=h88f2ebf_3".data),
        ("  - pip=21.2.4=pyhd8ed1ab_0".data)],
        pinLine l = true ∨ headNonWs l = true) ∧
      pinsFollowedOk [("dependencies:".data), ("  - python=3.9.7=h88f2ebf_3".data),
        ("  - pip=21.2.4=pyhd8ed1ab_0".data)] = true) ∧
    buildNormalize (joinLines [("dependencies:".data),
        ("  - python=3.9.7=h88f2ebf_3".data), ("  - pip=21.2.4=pyhd8ed1ab_0".data)]) =
      joinLines ([("dependencies:".data), ("  - python=3.9.7=h88f2ebf_3".data),
        ("  - pip=21.2.4=pyhd8ed1ab_0".data)].map dropBuildLine) :=
  ⟨⟨by decide, by decide, by decide⟩,
    C6_build_normalization _ (by decide) (by decide) (by decide)⟩

/-- The claim's `^\s*` pattern accepts a pin line with no leading
whitespace and would strip its build field, but the code's `^\s+` pattern
does not match it and the line passes through unchanged. -/
theorem C6_counterexample :
    specPinLine ("- a=1=2".data) = true ∧
    specBuildNormalize ("- a=1=2".data) = ("- a=1".data) ∧
    buildNormalize ("- a=1=2".data) = ("- a=1=2".data) ∧
    buildNormalize ("- a=1=2".data) ≠ specBuildNormalize ("- a=1=2".data) := by
  decide

/-! ## Order facts about the PEP 440 comparison key -/

theorem natCmp_self (a : Nat) : natCmp a a = .eq := by
  simp [natCmp]

theorem natCmp_eq_iff {a b : Nat} : natCmp a b = .eq ↔ a = b := by
  rw [natCmp]
  split
  · simp
    omega
  · split
    · simp
      assumption
    · simp
      omega

theorem natCmp_lt_iff {a b : Nat} : natCmp a b = .lt ↔ a < b := by
  rw [natCmp]
  split
  · simp
    assumption
  · split
    · simp
      omega
    · simp
      omega

theorem natCmp_swap (a b : Nat) : natCmp b a = (natCmp a b).swap := by
  rw [natCmp, natCmp]
  rcases lt_trichotomy a b with h | h | h
  · rw [if_pos h, if_neg (show ¬b < a by omega), if_neg (show ¬b = a by omega)]
    rfl
  · subst h
    rw [if_neg (show ¬a < a by omega), if_pos rfl]
    rfl
  · rw [if_neg (show ¬a < b by omega), if_neg (show ¬a = b by omega), if_pos h]
    rfl

theorem ordering_then_eq (o : Ordering) : o.then .eq = o := by
  cases o <;> rfl

theorem cmpNatList_self : ∀ l : List Nat, cmpNatList l l = .eq
  | [] => rfl
  | a :: t => by
    show (natCmp a a).then (cmpNatList t t) = .eq
    rw [natCmp_self, cmpNatList_self t]
    rfl

theorem cmpNatList_eq_iff : ∀ {l1 l2 : List Nat}, cmpNatList l1 l2 = .eq ↔ l1 = l2
  | [], [] => by simp [cmpNatList]
  | [], _ :: _ => by simp [cmpNatList]
  | _ :: _, [] => by simp [cmpNatList]
  | a :: t1, b :: t2 => by
    show (natCmp a b).then (cmpNatList t1 t2) = .eq ↔ _
    rw [Ordering.then_eq_eq, natCmp_eq_iff, @cmpNatList_eq_iff t1 t2]
    simp

theorem cmpNatList_swap : ∀ l1 l2 : List Nat, cmpNatList l2 l1 = (cmpNatList l1 l2).swap
  | [], [] => rfl
  | [], _ :: _ => rfl
  | _ :: _, [] => rfl
  | a :: t1, b :: t2 => by
    show (natCmp b a).then (cmpNatList t2 t1) = ((natCmp a b).then (cmpNatList t1 t2)).swap
    rw [Ordering.swap_then, natCmp_swap, cmpNatList_swap t1 t2]

theorem cmpNatList_lt_trans : ∀ {l1 l2 l3 : List Nat},
    cmpNatList l1 l2 = .lt → cmpNatList l2 l3 = .lt → cmpNatList l1 l3 = .lt := by
  intro l1
  induction l1 with
  | nil =>
    intro l2 l3 h1 h2
    cases l2 with
    | nil => exact absurd h1 (by simp [cmpNatList])
    | cons b t2 =>
      cases l3 with
      | nil => exact absurd h2 (by simp [cmpNatList])
      | cons c t3 => simp [cmpNatList]
  | cons a t1 ih =>
    intro l2 l3 h1 h2
    cases l2 with
    | nil => exact absurd h1 (by simp [cmpNatList])
    | cons b t2 =>
      cases l3 with
      | nil => exact absurd h2 (by simp [cmpNatList])
      | cons c t3 =>
        rw [show cmpNatList (a :: t1) (b :: t2) = (natCmp a b).then (cmpNatList t1 t2)
          from rfl, Ordering.then_eq_lt, natCmp_lt_iff, natCmp_eq_iff] at h1
        rw [show cmpNatList (b :: t2) (c :: t3) = (natCmp b c).then (cmpNatList t2 t3)
          from rfl, Ordering.then_eq_lt, natCmp_lt_iff, natCmp_eq_iff] at h2
        rw [show cmpNatList (a :: t1) (c :: t3) = (natCmp a c).then (cmpNatList t1 t3)
          from rfl, Ordering.then_eq_lt, natCmp_lt_iff, natCmp_eq_iff]
        rcases h1 with h1 | ⟨h1e, h1t⟩
        · rcases h2 with h2 | ⟨h2e, h2t⟩
          · exact Or.inl (by omega)
          · exact Or.inl (by omega)
        · rcases h2 with h2 | ⟨h2e, h2t⟩
          · exact Or.inl (by omega)
          · exact Or.inr ⟨by omega, ih h1t h2t⟩

theorem cmpVersion_key (a b : PyVersion) : cmpVersion a b =
    (cmpNatList (keyRel a) (keyRel b)).then (cmpNatList (keyTail a) (keyTail b)) := by
  rw [cmpVersion]
  simp only [keyRel, keyTail]
  rw [show ∀ p1 p2 d1 d2 q1 q2 e1 e2 : Nat, cmpNatList [p1, p2, d1, d2] [q1, q2, e1, e2] =
    (natCmp p1 q1).then ((natCmp p2 q2).then ((natCmp d1 e1).then
      ((natCmp d2 e2).then .eq))) from fun _ _ _ _ _ _ _ _ => rfl]
  rw [ordering_then_eq]

theorem cmpVersion_self (a : PyVersion) : cmpVersion a a = .eq := by
  rw [cmpVersion_key, cmpNatList_self, cmpNatList_self]
  rfl

theorem cmpVersion_swap (a b : PyVersion) : cmpVersion b a = (cmpVersion a b).swap := by
  rw [cmpVersion_key, cmpVersion_key, Ordering.swap_then,
    cmpNatList_swap (keyRel a) (keyRel b), cmpNatList_swap (keyTail a) (keyTail b)]

theorem cmpVersion_eq_iff {a b : PyVersion} :
    cmpVersion a b = .eq ↔ keyRel a = keyRel b ∧ keyTail a = keyTail b := by
  rw [cmpVersion_key, Ordering.then_eq_eq, cmpNatList_eq_iff, cmpNatList_eq_iff]

theorem cmpVersion_congr_right {x v : PyVersion} (h : cmpVersion x v = .eq)
    (y : PyVersion) : cmpVersion y x = cmpVersion y v := by
  obtain ⟨h1, h2⟩ := cmpVersion_eq_iff.mp h
  rw [cmpVersion_key, cmpVersion_key, h1, h2]

theorem cmpVersion_congr_left {x v : PyVersion} (h : cmpVersion x v = .eq)
    (y : PyVersion) : cmpVersion x y = cmpVersion v y := by
  obtain ⟨h1, h2⟩ := cmpVersion_eq_iff.mp h
  rw [cmpVersion_key, cmpVersion_key, h1, h2]

theorem cmpVersion_lt_trans {a b c : PyVersion} (h1 : cmpVersion a b = .lt)
    (h2 : cmpVersion b c = .lt) : cmpVersion a c = .lt := by
  rw [cmpVersion_key, Ordering.then_eq_lt] at h1 h2 ⊢
  rcases h1 with h1 | ⟨h1e, h1t⟩
  · rcases h2 with h2 | ⟨h2e, h2t⟩
    · exact Or.inl (cmpNatList_lt_trans h1 h2)
    · exact Or.inl (by rw [← cmpNatList_eq_iff.mp h2e]; exact h1)
  · rcases h2 with h2 | ⟨h2e, h2t⟩
    · exact Or.inl (by rw [cmpNatList_eq_iff.mp h1e]; exact h2)
    · exact Or.inr ⟨by rw [cmpNatList_eq_iff.mp h1e]; exact h2e,
        cmpNatList_lt_trans h1t h2t⟩

theorem vle_refl (a : PyVersion) : vleB a a = true := by
  rw [vleB, cmpVersion_self]
  rfl

theorem vle_total (a b : PyVersion) : vleB a b = true ∨ vleB b a = true := by
  rw [vleB, vleB, cmpVersion_swap a b]
  cases h : cmpVersion a b <;> decide

theorem vle_trans {a b c : PyVersion} (h1 : vleB a b = true) (h2 : vleB b c = true) :
    vleB a c = true := by
  rw [vleB] at h1 h2 ⊢
  cases hab : cmpVersion a b with
  | gt => rw [hab] at h1; exact absurd h1 (by decide)
  | eq => rw [cmpVersion_congr_left hab c]; exact h2
  | lt =>
    cases hbc : cmpVersion b c with
    | gt => rw [hbc] at h2; exact absurd h2 (by decide)
    | eq => rw [← cmpVersion_congr_right hbc a, hab]; decide
    | lt => rw [cmpVersion_lt_trans hab hbc]; decide

theorem vlt_iff_not_vle {a b : PyVersion} : vltB a b = true ↔ ¬vleB b a = true := by
  rw [vltB, vleB, cmpVersion_swap a b]
  cases h : cmpVersion a b <;> decide

theorem vlt_of_vle_not_veq {a b : PyVersion} (h1 : vleB a b = true)
    (h2 : veqB a b = false) : vltB a b = true := by
  rw [vleB] at h1
  rw [veqB] at h2
  rw [vltB]
  cases h : cmpVersion a b with
  | lt => rfl
  | eq => rw [h] at h2; exact absurd h2 (by decide)
  | gt => rw [h] at h1; exact absurd h1 (by decide)

theorem vlt_irrefl (a : PyVersion) : vltB a a = false := by
  rw [vltB, cmpVersion_self]
  rfl

theorem veq_to_eq {x v : PyVersion} (h : veqB x v = true) : cmpVersion x v = .eq := by
  rw [veqB] at h
  cases hc : cmpVersion x v with
  | lt => rw [hc] at h; exact absurd h (by decide)
  | eq => rfl
  | gt => rw [hc] at h; exact absurd h (by decide)

theorem vle_congr_right {x v : PyVersion} (h : veqB x v = true) (y : PyVersion) :
    vleB y x = vleB y v := by
  rw [vleB, vleB, cmpVersion_congr_right (veq_to_eq h) y]

theorem vle_congr_left {x v : PyVersion} (h : veqB x v = true) (y : PyVersion) :
    vleB x y = vleB v y := by
  rw [vleB, vleB, cmpVersion_congr_left (veq_to_eq h) y]

instance vleRel_total : IsTotal PyVersion vleRel := ⟨fun a b => vle_total a b⟩

instance vleRel_trans : IsTrans PyVersion vleRel := ⟨fun _ _ _ h1 h2 => vle_trans h1 h2⟩

/-- Core of the previous-release selection: the sorted list, the first
index PEP-equal to the current version, and the entry just before it
(Python's `[-1]` wrapping to the end when the index is 0). -/
theorem sorted_pick_spec (keys : List PyVersion) (version sel : PyVersion)
    (S : List PyVersion) (hS : S = pySorted (keys ++ [version]))
    (hsel : sel = if S.findIdx (fun x => veqB x version) = 0 then S.getLastD version
      else S.getD (S.findIdx (fun x => veqB x version) - 1) version) :
    ((∃ k ∈ keys, vltB k version = true) →
        sel ∈ keys ∧ vltB sel version = true ∧
        ∀ k ∈ keys, vltB k version = true → vleB k sel = true) ∧
    ((∀ k ∈ keys, vltB k version = false) →
        sel ∈ version :: keys ∧ vleB version sel = true ∧
        ∀ k ∈ keys, vleB k sel = true) := by
  have hsorted : S.Sorted vleRel := by
    rw [hS]
    exact List.sorted_insertionSort vleRel _
  have hperm : S.Perm (keys ++ [version]) := by
    rw [hS]
    exact List.perm_insertionSort vleRel _
  have hvmem : version ∈ S := hperm.mem_iff.mpr (by simp)
  have hfi : S.findIdx (fun x => veqB x version) < S.length :=
    List.findIdx_lt_length_of_exists ⟨version, hvmem, by
      show veqB version version = true
      rw [veqB, cmpVersion_self]
      rfl⟩
  have hrel : ∀ i j, ∀ hi : i < S.length, ∀ hj : j < S.length, i ≤ j →
      vleB S[i] S[j] = true := by
    intro i j hi hj hij
    rcases Nat.lt_or_eq_of_le hij with hlt | heq
    · exact hsorted.rel_get_of_lt (a := ⟨i, hi⟩) (b := ⟨j, hj⟩) hlt
    · subst heq
      exact vle_refl _
  have hmemS : ∀ k ∈ keys, k ∈ S := fun k hk =>
    hperm.mem_iff.mpr (List.mem_append.mpr (Or.inl hk))
  have hidxeq : veqB S[S.findIdx (fun x => veqB x version)] version = true := by
    have h := List.findIdx_getElem (p := fun x => veqB x version) (w := hfi)
    exact h
  have hge_not_lt : ∀ j, ∀ hj : j < S.length,
      S.findIdx (fun x => veqB x version) ≤ j → vltB S[j] version = false := by
    intro j hj hge
    have h1 : vleB S[S.findIdx (fun x => veqB x version)] S[j] = true :=
      hrel _ j hfi hj hge
    rw [vle_congr_left hidxeq S[j]] at h1
    cases hv : vltB S[j] version with
    | false => rfl
    | true => exact absurd h1 (vlt_iff_not_vle.mp hv)
  have hprevfacts : S.findIdx (fun x => veqB x version) ≠ 0 →
      S.getD (S.findIdx (fun x => veqB x version) - 1) version ∈ keys ∧
      vltB (S.getD (S.findIdx (fun x => veqB x version) - 1) version) version = true := by
    intro h0
    have hlt1 : S.findIdx (fun x => veqB x version) - 1 < S.length := by omega
    rw [List.getD_eq_getElem S version hlt1]
    have hle : vleB S[S.findIdx (fun x => veqB x version) - 1]
        S[S.findIdx (fun x => veqB x version)] = true := hrel _ _ hlt1 hfi (by omega)
    rw [vle_congr_right hidxeq] at hle
    have hne : veqB S[S.findIdx (fun x => veqB x version) - 1] version = false :=
      List.not_of_lt_findIdx (show S.findIdx (fun x => veqB x version) - 1 <
        S.findIdx (fun x => veqB x version) by omega)
    have hlt2 : vltB S[S.findIdx (fun x => veqB x version) - 1] version = true :=
      vlt_of_vle_not_veq hle hne
    rcases List.mem_append.mp (hperm.mem_iff.mp (List.getElem_mem hlt1)) with hk | hv'
    · exact ⟨hk, hlt2⟩
    · rw [List.mem_singleton] at hv'
      rw [hv'] at hlt2
      rw [vlt_irrefl version] at hlt2
      exact absurd hlt2 (by decide)
  constructor
  · intro hex
    obtain ⟨k, hk, hklt⟩ := hex
    have h0 : S.findIdx (fun x => veqB x version) ≠ 0 := by
      intro h0
      obtain ⟨⟨j, hj⟩, hget⟩ := List.mem_iff_get.mp (hmemS k hk)
      rw [List.get_eq_getElem] at hget
      have hjlt : vltB S[j] version = false := hge_not_lt j hj (by omega)
      rw [hget, hklt] at hjlt
      exact absurd hjlt (by decide)
    obtain ⟨hmemk, hltp⟩ := hprevfacts h0
    rw [hsel, if_neg h0]
    refine ⟨hmemk, hltp, ?_⟩
    intro k2 hk2 hk2lt
    obtain ⟨⟨j, hj⟩, hget⟩ := List.mem_iff_get.mp (hmemS k2 hk2)
    rw [List.get_eq_getElem] at hget
    have hjlt : j < S.findIdx (fun x => veqB x version) := by
      by_contra hcon
      have hjf := hge_not_lt j hj (by omega)
      rw [hget, hk2lt] at hjf
      exact absurd hjf (by decide)
    have hlt1 : S.findIdx (fun x => veqB x version) - 1 < S.length := by omega
    have hr := hrel j _ hj hlt1 (by omega)
    rw [hget] at hr
    rw [List.getD_eq_getElem S version hlt1]
    exact hr
  · intro hall
    have h0 : S.findIdx (fun x => veqB x version) = 0 := by
      by_contra h0
      obtain ⟨hmemk, hltp⟩ := hprevfacts h0
      have hf := hall _ hmemk
      rw [hltp] at hf
      exact absurd hf (by decide)
    rw [hsel, if_pos h0]
    have hSne : S ≠ [] := List.ne_nil_of_mem hvmem
    have hlen1 : S.length - 1 < S.length := by
      have := List.length_pos.mpr hSne
      omega
    have hlast : S.getLastD version = S[S.length - 1] := by
      rw [List.getLastD_eq_getLast?, List.getLast?_eq_getLast S hSne]
      rw [List.getLast_eq_getElem]
      rfl
    rw [hlast]
    refine ⟨?_, ?_, ?_⟩
    · rcases List.mem_append.mp (hperm.mem_iff.mp (List.getElem_mem hlen1)) with hk | hv'
      · exact List.mem_cons_of_mem _ hk
      · rw [List.mem_singleton] at hv'
        rw [hv']
        exact List.mem_cons_self _ _
    · obtain ⟨⟨j, hj⟩, hget⟩ := List.mem_iff_get.mp hvmem
      rw [List.get_eq_getElem] at hget
      have hr := hrel j _ hj hlen1 (by omega)
      rw [hget] at hr
      exact hr
    · intro k hk
      obtain ⟨⟨j, hj⟩, hget⟩ := List.mem_iff_get.mp (hmemS k hk)
      rw [List.get_eq_getElem] at hget
      have hr := hrel j _ hj hlen1 (by omega)
      rw [hget] at hr
      exact hr

/-- C7: among the parseable tags (unparseable ones are skipped, never
fatal), the selected previous release is the greatest version strictly
less than the current version when one exists; when the current version
is less than or equal to every parsed tag, Python's `[index - 1]` with
index 0 wraps around to the *last* sorted entry, so the selection is the
greatest entry overall (not a version strictly less than the current
one, contrary to the claim's parenthetical). -/
theorem C7_previous_release (tags : List String) (version : PyVersion) :
    ((∃ k ∈ dedupKeys (tags.filterMap parseVersion), vltB k version = true) →
        previousReleaseSelection tags version ∈
          dedupKeys (tags.filterMap parseVersion) ∧
        vltB (previousReleaseSelection tags version) version = true ∧
        ∀ k ∈ dedupKeys (tags.filterMap parseVersion), vltB k version = true →
          vleB k (previousReleaseSelection tags version) = true) ∧
    ((∀ k ∈ dedupKeys (tags.filterMap parseVersion), vltB k version = false) →
        previousReleaseSelection tags version ∈
          version :: dedupKeys (tags.filterMap parseVersion) ∧
        vleB version (previousReleaseSelection tags version) = true ∧
        ∀ k ∈ dedupKeys (tags.filterMap parseVersion),
          vleB k (previousReleaseSelection tags version) = true) :=
  sorted_pick_spec (dedupKeys (tags.filterMap parseVersion)) version
    (previousReleaseSelection tags version) _ rfl rfl

theorem C7_previous_release_witness :
    (∃ k ∈ dedupKeys ((["1.0", "1.5", "2.0"] : List String).filterMap parseVersion),
      vltB k ⟨[1, 7], none, none⟩ = true) ∧
    (previousReleaseSelection ["1.0", "1.5", "2.0"] ⟨[1, 7], none, none⟩ ∈
        dedupKeys ((["1.0", "1.5", "2.0"] : List String).filterMap parseVersion) ∧
      vltB (previousReleaseSelection ["1.0", "1.5", "2.0"] ⟨[1, 7], none, none⟩)
        ⟨[1, 7], none, none⟩ = true ∧
      ∀ k ∈ dedupKeys ((["1.0", "1.5", "2.0"] : List String).filterMap parseVersion),
        vltB k ⟨[1, 7], none, none⟩ = true →
        vleB k (previousReleaseSelection ["1.0", "1.5", "2.0"]
          ⟨[1, 7], none, none⟩) = true) :=
  ⟨by decide,
    (C7_previous_release ["1.0", "1.5", "2.0"] ⟨[1, 7], none, none⟩).1 (by decide)⟩

/-- With known tags 2.0 and 2.1 and current version 1.0 (smaller than
every tag), the selected "previous release" is 2.1 — the greatest tag
overall — which is not strictly less than the current version, contrary
to the claim. -/
theorem C7_counterexample :
    previousReleaseSelection ["2.0", "2.1"] ⟨[1, 0], none, none⟩ =
      ⟨[2, 1], none, none⟩ ∧
    vltB ⟨[2, 1], none, none⟩ ⟨[1, 0], none, none⟩ = false := by
  decide

end MakeRelease


